import Mathlib

/-!
A shallow embedding of the `bit-set` crate (`src/lib.rs`): a set of
non-negative integers stored as a packed array of `W`-bit unsigned blocks
on top of the `bit-vec` storage collaborator.

Blocks are modelled as `Nat` values that are kept `< 2^W`; the generic
block type `B` of the source becomes the width parameter `W` (`B::bits()`).
The growable bit storage `bit_vec::BitVec` is modelled as a list of blocks
together with the logical bit length `nbits`.  Mutating methods of the
source are modelled as functions returning the updated value.
-/

/-- Popcount loop: `go fuel n` adds the low bit of `n` and recurses on
`n / 2`; `fuel ≥ n` suffices because `n / 2 < n` for `n > 0`.  Models the
`count_ones` capability of the block type. -/
def count_onesGo : Nat → Nat → Nat
  | 0, _ => 0
  | fuel + 1, n => if n = 0 then 0 else n % 2 + count_onesGo fuel (n / 2)

/-- The `B::count_ones`: number of set bits of a block. -/
def count_ones (n : Nat) : Nat := count_onesGo n n

theorem count_onesGo_of_le {fuel fuel' n : Nat} (h : n ≤ fuel) (h' : n ≤ fuel') :
    count_onesGo fuel n = count_onesGo fuel' n := by
  induction fuel generalizing fuel' n with
  | zero =>
    interval_cases n
    cases fuel' <;> simp [count_onesGo]
  | succ f ih =>
    cases fuel' with
    | zero =>
      interval_cases n
      simp [count_onesGo]
    | succ f' =>
      simp only [count_onesGo]
      by_cases h0 : n = 0
      · simp [h0]
      · have hd : n / 2 ≤ f := Nat.le_of_lt_succ (Nat.lt_of_lt_of_le (Nat.div_lt_self (Nat.pos_of_ne_zero h0) one_lt_two) (Nat.lt_succ_iff.mp (Nat.lt_succ_of_le h)))
        have hd' : n / 2 ≤ f' := Nat.le_of_lt_succ (Nat.lt_of_lt_of_le (Nat.div_lt_self (Nat.pos_of_ne_zero h0) one_lt_two) (Nat.lt_succ_iff.mp (Nat.lt_succ_of_le h')))
        rw [ih hd hd']

theorem count_ones_zero : count_ones 0 = 0 := rfl

theorem count_ones_rec {n : Nat} (h : 0 < n) :
    count_ones n = n % 2 + count_ones (n / 2) := by
  have hn : n ≠ 0 := Nat.pos_iff_ne_zero.mp h
  obtain ⟨m, rfl⟩ : ∃ m, n = m + 1 := ⟨n - 1, by omega⟩
  show count_onesGo (m + 1) (m + 1) = (m + 1) % 2 + count_ones ((m + 1) / 2)
  simp only [count_onesGo, hn, if_false]
  congr 1
  exact count_onesGo_of_le (by omega) le_rfl

theorem count_ones_pos : ∀ {n : Nat}, 0 < n → 0 < count_ones n := by
  intro n
  induction n using Nat.strong_induction_on with
  | _ n ih =>
    intro h
    rw [count_ones_rec h]
    rcases Nat.eq_zero_or_pos (n % 2) with h2 | h2
    · have hhalf : 0 < n / 2 := by omega
      have := ih (n / 2) (Nat.div_lt_self h one_lt_two) hhalf
      omega
    · omega

theorem count_ones_eq_zero {n : Nat} : count_ones n = 0 ↔ n = 0 := by
  constructor
  · intro h
    by_contra hn
    have := count_ones_pos (Nat.pos_of_ne_zero hn)
    omega
  · intro h; subst h; rfl

/-- Trailing-zero count loop (fuelled like `count_onesGo`); `ctz n` is the
index of the lowest set bit of `n` (meaningful for `n ≠ 0`). -/
def ctzGo : Nat → Nat → Nat
  | 0, _ => 0
  | fuel + 1, n => if n % 2 = 1 then 0 else ctzGo fuel (n / 2) + 1

/-- Index of the lowest set bit (number of trailing zeros) of a nonzero block. -/
def ctz (n : Nat) : Nat := ctzGo n n

theorem ctzGo_of_le {fuel fuel' n : Nat} (h : 0 < n) (hf : n ≤ fuel) (hf' : n ≤ fuel') :
    ctzGo fuel n = ctzGo fuel' n := by
  induction fuel generalizing fuel' n with
  | zero => omega
  | succ f ih =>
    cases fuel' with
    | zero => omega
    | succ f' =>
      simp only [ctzGo]
      by_cases h1 : n % 2 = 1
      · simp [h1]
      · have hhalf : 0 < n / 2 := by omega
        have hd : n / 2 ≤ f := by omega
        have hd' : n / 2 ≤ f' := by omega
        rw [if_neg h1, if_neg h1, ih hhalf hd hd']

theorem ctz_rec {n : Nat} (h : 0 < n) :
    ctz n = if n % 2 = 1 then 0 else ctz (n / 2) + 1 := by
  obtain ⟨m, rfl⟩ : ∃ m, n = m + 1 := ⟨n - 1, by omega⟩
  show ctzGo (m + 1) (m + 1) = _
  simp only [ctzGo]
  by_cases h1 : (m + 1) % 2 = 1
  · simp [h1]
  · rw [if_neg h1, if_neg h1]
    have hhalf : 0 < (m + 1) / 2 := by omega
    rw [ctzGo_of_le hhalf (by omega) le_rfl]
    rfl

/-- Ascending list of the set-bit indices of a natural number, by binary
recursion (fuelled like the other loops). -/
def bitsAscGo : Nat → Nat → List Nat
  | 0, _ => []
  | fuel + 1, n =>
    if n = 0 then []
    else if n % 2 = 1 then 0 :: (bitsAscGo fuel (n / 2)).map (· + 1)
    else (bitsAscGo fuel (n / 2)).map (· + 1)

/-- Ascending list of the set-bit indices of a natural number. -/
def bitsAsc (n : Nat) : List Nat := bitsAscGo n n

theorem bitsAscGo_of_le {fuel fuel' n : Nat} (hf : n ≤ fuel) (hf' : n ≤ fuel') :
    bitsAscGo fuel n = bitsAscGo fuel' n := by
  induction fuel generalizing fuel' n with
  | zero =>
    interval_cases n
    cases fuel' <;> simp [bitsAscGo]
  | succ f ih =>
    cases fuel' with
    | zero =>
      interval_cases n
      simp [bitsAscGo]
    | succ f' =>
      simp only [bitsAscGo]
      by_cases h0 : n = 0
      · simp [h0]
      · have hd : n / 2 ≤ f := by omega
        have hd' : n / 2 ≤ f' := by omega
        rw [ih hd hd']

theorem bitsAsc_zero : bitsAsc 0 = [] := rfl

theorem bitsAsc_rec {n : Nat} (h : 0 < n) :
    bitsAsc n = if n % 2 = 1 then 0 :: (bitsAsc (n / 2)).map (· + 1)
                else (bitsAsc (n / 2)).map (· + 1) := by
  obtain ⟨m, rfl⟩ : ∃ m, n = m + 1 := ⟨n - 1, by omega⟩
  show bitsAscGo (m + 1) (m + 1) = _
  simp only [bitsAscGo]
  rw [if_neg (by omega)]
  rw [bitsAscGo_of_le (show (m + 1) / 2 ≤ m by omega) le_rfl]
  rfl

theorem bitsAsc_two_mul {a : Nat} : bitsAsc (2 * a) = (bitsAsc a).map (· + 1) := by
  rcases Nat.eq_zero_or_pos a with rfl | ha
  · simp [bitsAsc_zero]
  · rw [bitsAsc_rec (by omega)]
    have : 2 * a % 2 = 0 := by omega
    rw [if_neg (by omega), Nat.mul_div_cancel_left a (by norm_num)]

theorem bitsAsc_two_mul_add_one {a : Nat} :
    bitsAsc (2 * a + 1) = 0 :: (bitsAsc a).map (· + 1) := by
  rw [bitsAsc_rec (by omega), if_pos (by omega)]
  have h2 : (2 * a + 1) / 2 = a := by omega
  rw [h2]

theorem two_mul_add_and {x y r s : Nat} (hr : r ≤ 1) (hs : s ≤ 1) :
    (2 * x + r) &&& (2 * y + s) = 2 * (x &&& y) + (r &&& s) := by
  apply Nat.eq_of_testBit_eq
  intro i
  cases i with
  | zero =>
    simp only [Nat.testBit_and, Nat.testBit_zero]
    interval_cases r <;> interval_cases s <;>
      simp [Nat.mul_add_mod, Nat.mul_mod_right]
  | succ i =>
    have hx : (2 * x + r) / 2 = x := by omega
    have hy : (2 * y + s) / 2 = y := by omega
    have hrs : r &&& s ≤ 1 := le_trans Nat.and_le_left hr
    have hz : (2 * (x &&& y) + (r &&& s)) / 2 = x &&& y := by omega
    rw [Nat.testBit_and, Nat.testBit_succ, Nat.testBit_succ, Nat.testBit_succ,
      hx, hy, hz, Nat.testBit_and]

theorem two_mul_and_two_mul {x y : Nat} : (2 * x) &&& (2 * y) = 2 * (x &&& y) := by
  have h := two_mul_add_and (x := x) (y := y) (r := 0) (s := 0) (by omega) (by omega)
  simpa using h

theorem two_mul_add_one_and_two_mul {x y : Nat} :
    (2 * x + 1) &&& (2 * y) = 2 * (x &&& y) := by
  have h := two_mul_add_and (x := x) (y := y) (r := 1) (s := 0) (by omega) (by omega)
  simpa using h

theorem two_mul_and_two_mul_add_one {x y : Nat} :
    (2 * x) &&& (2 * y + 1) = 2 * (x &&& y) := by
  have h := two_mul_add_and (x := x) (y := y) (r := 0) (s := 1) (by omega) (by omega)
  simpa using h

theorem two_mul_add_one_and_two_mul_add_one {x y : Nat} :
    (2 * x + 1) &&& (2 * y + 1) = 2 * (x &&& y) + 1 := by
  have h := two_mul_add_and (x := x) (y := y) (r := 1) (s := 1) (by omega) (by omega)
  simpa using h

/-- A number and its `k`-bit complement have no common set bit. -/
theorem and_two_pow_sub_one_sub_self {k : Nat} :
    ∀ {c : Nat}, c < 2 ^ k → c &&& (2 ^ k - 1 - c) = 0 := by
  induction k with
  | zero =>
    intro c hc
    interval_cases c
    rfl
  | succ k ih =>
    intro c hc
    obtain ⟨d, r, rfl, hr⟩ : ∃ d r, c = 2 * d + r ∧ r ≤ 1 :=
      ⟨c / 2, c % 2, by omega, by omega⟩
    have hp : 0 < 2 ^ k := Nat.pos_pow_of_pos k (by omega)
    have hd : d < 2 ^ k := by rw [pow_succ] at hc; omega
    have hsplit : 2 ^ (k + 1) - 1 - (2 * d + r) = 2 * (2 ^ k - 1 - d) + (1 - r) := by
      rw [pow_succ]; omega
    rw [hsplit, two_mul_add_and hr (by omega), ih hd]
    rcases Nat.le_one_iff_eq_zero_or_eq_one.mp hr with rfl | rfl <;> simp

/-- For odd `b < 2^W`, isolating the lowest set bit via the two's complement
`b &&& (2^W - b)` yields `1`. -/
theorem odd_and_two_pow_sub {b W : Nat} (hodd : b % 2 = 1) (hlt : b < 2 ^ W) :
    b &&& (2 ^ W - b) = 1 := by
  obtain ⟨c, rfl⟩ : ∃ c, b = 2 * c + 1 := ⟨b / 2, by omega⟩
  obtain ⟨V, rfl⟩ : ∃ V, W = V + 1 := by
    cases W with
    | zero => exfalso; rw [pow_zero] at hlt; omega
    | succ V => exact ⟨V, rfl⟩
  have hp : 0 < 2 ^ V := Nat.pos_pow_of_pos V (by omega)
  have hc : c < 2 ^ V := by rw [pow_succ] at hlt; omega
  have hsplit : 2 ^ (V + 1) - (2 * c + 1) = 2 * (2 ^ V - 1 - c) + 1 := by
    rw [pow_succ]; omega
  rw [hsplit, two_mul_add_one_and_two_mul_add_one, and_two_pow_sub_one_sub_self hc]

/-- The two's-complement trick isolates exactly the lowest set bit:
`b &&& (2^W - b) = 2 ^ ctz b` for `0 < b < 2^W`. -/
theorem and_two_pow_sub_eq_pow_ctz :
    ∀ {b : Nat}, 0 < b → ∀ {W : Nat}, b < 2 ^ W → b &&& (2 ^ W - b) = 2 ^ ctz b := by
  intro b
  induction b using Nat.strong_induction_on with
  | _ b ih =>
    intro hb W hlt
    rcases Nat.even_or_odd b with he | ho
    · obtain ⟨a, rfl⟩ : ∃ a, b = 2 * a := ⟨b / 2, by rcases he with ⟨t, ht⟩; omega⟩
      have ha : 0 < a := by omega
      obtain ⟨V, rfl⟩ : ∃ V, W = V + 1 := by
        cases W with
        | zero => simp at hlt; omega
        | succ V => exact ⟨V, rfl⟩
      have hp : 0 < 2 ^ V := Nat.pos_pow_of_pos V (by omega)
      have haV : a < 2 ^ V := by rw [pow_succ] at hlt; omega
      have hsplit : 2 ^ (V + 1) - 2 * a = 2 * (2 ^ V - a) := by rw [pow_succ]; omega
      have hctz : ctz (2 * a) = ctz a + 1 := by
        rw [ctz_rec (by omega), if_neg (by omega), Nat.mul_div_cancel_left a (by norm_num)]
      rw [hsplit, two_mul_and_two_mul, ih a (by omega) ha haV, hctz, pow_succ]
      ring
    · have hodd : b % 2 = 1 := Nat.odd_iff.mp ho
      have hctz : ctz b = 0 := by rw [ctz_rec hb, if_pos hodd]
      rw [odd_and_two_pow_sub hodd hlt, hctz, pow_zero]

/-- Clearing the lowest set bit (`b &&& (b - 1)`) removes the head of the
ascending bit list. -/
theorem bitsAsc_eq_ctz_cons : ∀ {b : Nat}, 0 < b → bitsAsc b = ctz b :: bitsAsc (b &&& (b - 1)) := by
  intro b
  induction b using Nat.strong_induction_on with
  | _ b ih =>
    intro hb
    rcases Nat.even_or_odd b with he | ho
    · obtain ⟨a, rfl⟩ : ∃ a, b = 2 * a := ⟨b / 2, by rcases he with ⟨t, ht⟩; omega⟩
      have ha : 0 < a := by omega
      have hctz : ctz (2 * a) = ctz a + 1 := by
        rw [ctz_rec (by omega), if_neg (by omega), Nat.mul_div_cancel_left a (by norm_num)]
      have hsub : 2 * a - 1 = 2 * (a - 1) + 1 := by omega
      have hand : (2 * a) &&& (2 * a - 1) = 2 * (a &&& (a - 1)) := by
        rw [hsub, two_mul_and_two_mul_add_one]
      rw [hand, hctz, bitsAsc_two_mul, ih a (by omega) ha, bitsAsc_two_mul]
      simp
    · have hodd : b % 2 = 1 := Nat.odd_iff.mp ho
      obtain ⟨a, rfl⟩ : ∃ a, b = 2 * a + 1 := ⟨b / 2, by omega⟩
      have hctz : ctz (2 * a + 1) = 0 := by rw [ctz_rec hb, if_pos hodd]
      have hand : (2 * a + 1) &&& (2 * a + 1 - 1) = 2 * a := by
        have h1 : 2 * a + 1 - 1 = 2 * a := by omega
        rw [h1, two_mul_add_one_and_two_mul, Nat.and_self]
      rw [hand, hctz, bitsAsc_two_mul_add_one, bitsAsc_two_mul]

theorem count_ones_two_pow_sub_one (L : Nat) : count_ones (2 ^ L - 1) = L := by
  induction L with
  | zero => rfl
  | succ L ih =>
    have hp : 0 < 2 ^ L := Nat.pos_pow_of_pos L (by omega)
    have h1 : 2 ^ (L + 1) - 1 = 2 * (2 ^ L - 1) + 1 := by rw [pow_succ]; omega
    rw [h1, count_ones_rec (by omega)]
    have h2 : (2 * (2 ^ L - 1) + 1) % 2 = 1 := by omega
    have h3 : (2 * (2 ^ L - 1) + 1) / 2 = 2 ^ L - 1 := by omega
    rw [h2, h3, ih]
    omega

theorem mem_bitsAsc : ∀ {n j : Nat}, j ∈ bitsAsc n ↔ n.testBit j = true := by
  intro n
  induction n using Nat.strong_induction_on with
  | _ n ih =>
    intro j
    rcases Nat.eq_zero_or_pos n with rfl | hn
    · simp [bitsAsc_zero]
    · rw [bitsAsc_rec hn]
      have ihn := fun j => ih (n / 2) (Nat.div_lt_self hn one_lt_two) (j := j)
      by_cases hodd : n % 2 = 1
      · rw [if_pos hodd]
        cases j with
        | zero => simp [Nat.testBit_zero, hodd]
        | succ j =>
          rw [Nat.testBit_succ, ← ihn j]
          simp only [List.mem_cons, List.mem_map]
          constructor
          · rintro (h | ⟨j', hj', hj⟩)
            · omega
            · have hjj : j' = j := by omega
              subst hjj; exact hj'
          · intro h
            exact Or.inr ⟨j, h, rfl⟩
      · rw [if_neg hodd]
        cases j with
        | zero =>
          simp only [Nat.testBit_zero, List.mem_map]
          constructor
          · rintro ⟨j', hj', h⟩; omega
          · intro h; simp at h; omega
        | succ j =>
          rw [Nat.testBit_succ, ← ihn j]
          simp only [List.mem_map]
          constructor
          · rintro ⟨j', hj', h⟩
            have : j' = j := by omega
            subst this; exact hj'
          · intro h; exact ⟨j, h, rfl⟩

theorem bitsAsc_mem_lt {n j W : Nat} (h : j ∈ bitsAsc n) (hn : n < 2 ^ W) : j < W := by
  by_contra hW
  have hle : 2 ^ W ≤ 2 ^ j := Nat.pow_le_pow_right (by omega) (by omega)
  have : n.testBit j = false := Nat.testBit_lt_two_pow (by omega)
  rw [mem_bitsAsc] at h
  rw [h] at this
  cases this

theorem sorted_bitsAsc : ∀ n : Nat, List.Sorted (· < ·) (bitsAsc n) := by
  intro n
  induction n using Nat.strong_induction_on with
  | _ n ih =>
    rcases Nat.eq_zero_or_pos n with rfl | hn
    · simp [bitsAsc_zero]
    · rw [bitsAsc_rec hn]
      have ihs := ih (n / 2) (Nat.div_lt_self hn one_lt_two)
      have hmap : List.Sorted (· < ·) ((bitsAsc (n / 2)).map (· + 1)) := by
        rw [List.Sorted, List.pairwise_map]
        exact ihs.imp (by omega)
      by_cases hodd : n % 2 = 1
      · rw [if_pos hodd]
        refine List.sorted_cons.mpr ⟨?_, hmap⟩
        intro b hb
        rcases List.mem_map.mp hb with ⟨j, _, rfl⟩
        omega
      · rw [if_neg hodd]
        exact hmap

theorem length_bitsAsc : ∀ n : Nat, (bitsAsc n).length = count_ones n := by
  intro n
  induction n using Nat.strong_induction_on with
  | _ n ih =>
    rcases Nat.eq_zero_or_pos n with rfl | hn
    · simp [bitsAsc_zero, count_ones_zero]
    · rw [bitsAsc_rec hn, count_ones_rec hn]
      have ihl := ih (n / 2) (Nat.div_lt_self hn one_lt_two)
      by_cases hodd : n % 2 = 1
      · rw [if_pos hodd, hodd]
        simp [ihl]
        omega
      · rw [if_neg hodd]
        have h0 : n % 2 = 0 := by omega
        rw [h0]
        simp [ihl]

/-- The body of `BlockIter::next` draining the current head block
(`src/lib.rs:857-875`): while the head is nonzero it isolates the lowest
set bit via `k = (head & (!head + 1)) - 1` (the `W`-bit complement `!head`
is `2^W - 1 - head`), yields `head_offset + count_ones k`, and clears the
bit with `head & (head - 1)`.  The loop terminates because clearing the
lowest set bit strictly decreases `head`, so the initial `head` value
bounds the number of iterations and serves as fuel. -/
def drainGo (W : Nat) : Nat → Nat → Nat → List Nat
  | 0, _, _ => []
  | fuel + 1, head, off =>
    if head = 0 then []
    else
      (off + count_ones ((head &&& (2 ^ W - 1 - head + 1)) - 1)) ::
        drainGo W fuel (head &&& (head - 1)) off

/-- All positions yielded while draining one head block at offset `off`. -/
def drainHead (W head off : Nat) : List Nat := drainGo W head head off

theorem drainGo_of_le {W : Nat} :
    ∀ {fuel fuel' head off : Nat}, head ≤ fuel → head ≤ fuel' →
      drainGo W fuel head off = drainGo W fuel' head off := by
  intro fuel
  induction fuel with
  | zero =>
    intro fuel' head off h h'
    have : head = 0 := by omega
    subst this
    cases fuel' <;> simp [drainGo]
  | succ f ih =>
    intro fuel' head off h h'
    cases fuel' with
    | zero =>
      have : head = 0 := by omega
      subst this
      simp [drainGo]
    | succ f' =>
      simp only [drainGo]
      by_cases h0 : head = 0
      · simp [h0]
      · rw [if_neg h0, if_neg h0]
        have hlt : head &&& (head - 1) ≤ head - 1 := Nat.and_le_right
        have h1 : head &&& (head - 1) ≤ f := by omega
        have h2 : head &&& (head - 1) ≤ f' := by omega
        rw [ih h1 h2]

/-- Draining a head block yields exactly its set-bit indices, shifted by the
offset, in ascending order. -/
theorem drainHead_eq {W : Nat} :
    ∀ {head : Nat}, head < 2 ^ W → ∀ off,
      drainHead W head off = (bitsAsc head).map (off + ·) := by
  intro head
  induction head using Nat.strong_induction_on with
  | _ head ih =>
    intro hlt off
    rcases Nat.eq_zero_or_pos head with rfl | hpos
    · simp [drainHead, drainGo, bitsAsc_zero]
    · obtain ⟨m, hm⟩ : ∃ m, head = m + 1 := ⟨head - 1, by omega⟩
      have hstep : drainHead W head off =
          (off + count_ones ((head &&& (2 ^ W - 1 - head + 1)) - 1)) ::
            drainGo W m (head &&& (head - 1)) off := by
        rw [drainHead, hm]
        simp only [drainGo]
        rw [if_neg (by omega)]
      have hle : head &&& (head - 1) ≤ m := by
        have := Nat.and_le_right (n := head) (m := head - 1)
        omega
      have hd : drainGo W m (head &&& (head - 1)) off =
          drainHead W (head &&& (head - 1)) off := by
        rw [drainHead, drainGo_of_le hle le_rfl]
      have hlt' : head &&& (head - 1) < head := by
        have := Nat.and_le_right (n := head) (m := head - 1)
        omega
      have hcompl : 2 ^ W - 1 - head + 1 = 2 ^ W - head := by
        have : 0 < 2 ^ W := Nat.pos_pow_of_pos W (by omega)
        omega
      have hiso : head &&& (2 ^ W - 1 - head + 1) = 2 ^ ctz head := by
        rw [hcompl]
        exact and_two_pow_sub_eq_pow_ctz hpos hlt
      have hcount : count_ones ((head &&& (2 ^ W - 1 - head + 1)) - 1) = ctz head := by
        rw [hiso, count_ones_two_pow_sub_one]
      rw [hstep, hd, hcount, ih _ hlt' (lt_of_le_of_lt (le_of_lt hlt') hlt) off,
        bitsAsc_eq_ctz_cons hpos]
      simp

/-- The `BlockIter` state machine run to exhaustion: drain the current head,
then pull the next block from the tail, advancing the offset by `W` bits
per block (`src/lib.rs:857-875`). -/
def blockIterRun (W : Nat) (head off : Nat) : List Nat → List Nat
  | [] => drainHead W head off
  | w :: tl => drainHead W head off ++ blockIterRun W w (off + W) tl

/-- The `BlockIter::from_blocks` (`src/lib.rs:828-831`): the first block (or a
zero block if the stream is empty) becomes the head, at offset 0, and the
rest of the stream is the tail; then the iterator is run to exhaustion. -/
def from_blocks_run (W : Nat) : List Nat → List Nat
  | [] => blockIterRun W 0 0 []
  | h :: t => blockIterRun W h 0 t

/-- Specification-level iteration: concatenate the ascending set-bit lists
of the blocks, each shifted by its block offset. -/
def specList (W : Nat) : Nat → List Nat → List Nat
  | _, [] => []
  | off, b :: t => (bitsAsc b).map (off + ·) ++ specList W (off + W) t

theorem blockIterRun_eq {W : Nat} :
    ∀ (tl : List Nat) (head off : Nat), (∀ b ∈ tl, b < 2 ^ W) → head < 2 ^ W →
      blockIterRun W head off tl = (bitsAsc head).map (off + ·) ++ specList W (off + W) tl := by
  intro tl
  induction tl with
  | nil =>
    intro head off _ hh
    simp [blockIterRun, specList, drainHead_eq hh]
  | cons w tl ih =>
    intro head off hb hh
    simp only [blockIterRun, specList]
    rw [drainHead_eq hh, ih w (off + W) (fun b hbmem => hb b (List.mem_cons_of_mem _ hbmem))
      (hb w (List.mem_cons_self _ _))]

theorem from_blocks_run_eq {W : Nat} {blocks : List Nat}
    (hb : ∀ b ∈ blocks, b < 2 ^ W) :
    from_blocks_run W blocks = specList W 0 blocks := by
  cases blocks with
  | nil => rfl
  | cons h t =>
    rw [from_blocks_run, blockIterRun_eq t h 0
      (fun b hbm => hb b (List.mem_cons_of_mem _ hbm)) (hb h (List.mem_cons_self _ _))]
    rfl

theorem specList_lb {W : Nat} :
    ∀ (blocks : List Nat) (off x : Nat), x ∈ specList W off blocks → off ≤ x := by
  intro blocks
  induction blocks with
  | nil => intro off x h; simp [specList] at h
  | cons b t ih =>
    intro off x h
    rcases List.mem_append.mp h with h1 | h2
    · rcases List.mem_map.mp h1 with ⟨j, _, rfl⟩
      omega
    · have := ih (off + W) x h2
      omega

theorem mem_specList {W : Nat} (hW : 0 < W) :
    ∀ (blocks : List Nat) (off x : Nat), (∀ b ∈ blocks, b < 2 ^ W) →
      (x ∈ specList W off blocks ↔
        off ≤ x ∧ ((blocks.getD ((x - off) / W) 0).testBit ((x - off) % W) = true)) := by
  intro blocks
  induction blocks with
  | nil =>
    intro off x _
    simp [specList]
  | cons b t ih =>
    intro off x hb
    have hbW : b < 2 ^ W := hb b (List.mem_cons_self _ _)
    have hbt : ∀ c ∈ t, c < 2 ^ W := fun c hc => hb c (List.mem_cons_of_mem _ hc)
    simp only [specList, List.mem_append]
    by_cases hx : off ≤ x
    · by_cases hxW : x - off < W
      · have hdiv : (x - off) / W = 0 := Nat.div_eq_of_lt hxW
        have hmod : (x - off) % W = x - off := Nat.mod_eq_of_lt hxW
        rw [hdiv, hmod]
        simp only [List.getD_cons_zero]
        constructor
        · rintro (h1 | h2)
          · rcases List.mem_map.mp h1 with ⟨j, hj, rfl⟩
            refine ⟨hx, ?_⟩
            have hjx : off + j - off = j := by omega
            rw [hjx]
            exact mem_bitsAsc.mp hj
          · have := specList_lb t (off + W) x h2
            omega
        · rintro ⟨-, h⟩
          left
          refine List.mem_map.mpr ⟨x - off, mem_bitsAsc.mpr h, by omega⟩
      · have hW2 : W ≤ x - off := by omega
        have hdiv : (x - off) / W = (x - off - W) / W + 1 :=
          Nat.div_eq_sub_div hW hW2
        have hmod : (x - off) % W = (x - off - W) % W :=
          Nat.mod_eq_sub_mod hW2
        have harg : x - off - W = x - (off + W) := by omega
        rw [hdiv, hmod, harg]
        simp only [List.getD_cons_succ]
        have hih := ih (off + W) x hbt
        constructor
        · rintro (h1 | h2)
          · exfalso
            rcases List.mem_map.mp h1 with ⟨j, hj, hjx⟩
            have := bitsAsc_mem_lt hj hbW
            omega
          · exact ⟨hx, (hih.mp h2).2⟩
        · rintro ⟨-, h⟩
          right
          exact hih.mpr ⟨by omega, h⟩
    · constructor
      · rintro (h1 | h2)
        · exfalso
          rcases List.mem_map.mp h1 with ⟨j, hj, rfl⟩
          omega
        · exfalso
          have := specList_lb t (off + W) x h2
          omega
      · rintro ⟨h, -⟩
        exact absurd h hx

theorem specList_mem_ub {W : Nat} {b x off : Nat} (hb : b < 2 ^ W)
    (h : x ∈ (bitsAsc b).map (off + ·)) : x < off + W := by
  rcases List.mem_map.mp h with ⟨j, hj, rfl⟩
  have := bitsAsc_mem_lt hj hb
  omega

theorem sorted_specList {W : Nat} :
    ∀ (blocks : List Nat) (off : Nat), (∀ b ∈ blocks, b < 2 ^ W) →
      List.Sorted (· < ·) (specList W off blocks) := by
  intro blocks
  induction blocks with
  | nil => intro off _; simp [specList]
  | cons b t ih =>
    intro off hb
    have hbW : b < 2 ^ W := hb b (List.mem_cons_self _ _)
    have hbt : ∀ c ∈ t, c < 2 ^ W := fun c hc => hb c (List.mem_cons_of_mem _ hc)
    rw [specList, List.Sorted, List.pairwise_append]
    refine ⟨?_, ih (off + W) hbt, ?_⟩
    · rw [List.pairwise_map]
      exact (sorted_bitsAsc b).imp (by omega)
    · intro x hx y hy
      have h1 := specList_mem_ub hbW hx
      have h2 := specList_lb t (off + W) y hy
      omega

theorem length_specList {W : Nat} :
    ∀ (blocks : List Nat) (off : Nat),
      (specList W off blocks).length = (blocks.map count_ones).sum := by
  intro blocks
  induction blocks with
  | nil => intro off; simp [specList]
  | cons b t ih =>
    intro off
    rw [specList, List.length_append, List.length_map, length_bitsAsc, ih (off + W)]
    simp

/-- The `blocks_for_bits` (`src/lib.rs:68-82`): number of blocks needed to hold
`bits` bits. -/
def blocks_for_bits (W bits : Nat) : Nat :=
  if bits % W = 0 then bits / W else bits / W + 1

/-- Model of the external `bit_vec::BitVec<B>` storage collaborator (spec
§6): an ordered sequence of `W`-bit blocks plus a logical length in bits.
Bit `i` lives in block `i / W` at offset `i % W`, least significant bit
first. -/
structure BVec (W : Nat) : Type where
  storage : List Nat
  nbits : Nat

/-- The `BitVec::len()`: the logical length in bits. -/
def BVec.len {W : Nat} (bv : BVec W) : Nat := bv.nbits

/-- Reading physical bit `i`: `storage[i / W] & (1 << (i % W)) != 0`.
This total model yields a zero block for an out-of-range block read; the
storage itself panics/errors on such a read (spec §6), which `BVec.get?`
models, and `contains_fallible_agrees` shows the two models agree on every
state satisfying the representation invariant `BVec.Inv`. -/
def BVec.getBit {W : Nat} (bv : BVec W) (i : Nat) : Bool :=
  (bv.storage.getD (i / W) 0) &&& (1 <<< (i % W)) != 0

/-- The storage's fallible bit read, `BitVec::get(i)` (spec §6): none for
`i` at or past the logical length; otherwise block `i / W` is read, and an
unallocated block is an out-of-range access, which the storage reports by
panicking/erroring (spec §6), modelled as none. -/
def BVec.get? {W : Nat} (bv : BVec W) (i : Nat) : Option Bool :=
  if bv.nbits ≤ i then Option.none
  else (bv.storage[i / W]?).map (fun block => block &&& (1 <<< (i % W)) != 0)

/-- The `BitVec::set(i, v)` (spec §6): `flag = 1 << (i % W)`; the target block
becomes `block | flag` when setting, `block & !flag` when clearing (the
`W`-bit complement `!flag` is `(2^W - 1) ^^^ flag`). -/
def BVec.set {W : Nat} (bv : BVec W) (i : Nat) (v : Bool) : BVec W :=
  let w := i / W
  let flag := 1 <<< (i % W)
  let newBlock :=
    if v then bv.storage.getD w 0 ||| flag
    else bv.storage.getD w 0 &&& ((2 ^ W - 1) ^^^ flag)
  { bv with storage := bv.storage.set w newBlock }

/-- The `BitVec::grow(n, false)` (spec §6): extend the logical length by `n`
bits; the storage is extended with zero blocks so that it again holds
`blocks_for_bits` blocks, and no existing bit changes (the fill is false). -/
def BVec.grow {W : Nat} (bv : BVec W) (n : Nat) : BVec W :=
  { storage := bv.storage ++
      List.replicate (blocks_for_bits W (bv.nbits + n) - bv.storage.length) 0,
    nbits := bv.nbits + n }

/-- The `BitVec::none()`: no block has any set bit. -/
def BVec.none {W : Nat} (bv : BVec W) : Bool := bv.storage.all (· == 0)

/-- The `BitVec::clear()`: zero every block, keeping the logical length. -/
def BVec.clear {W : Nat} (bv : BVec W) : BVec W :=
  { bv with storage := bv.storage.map (fun _ => 0) }

/-- The `Enumerate` over a block stream starting at index `k` (Rust's
`.enumerate()` is `enumerate 0`). -/
def enumerate : Nat → List Nat → List (Nat × Nat)
  | _, [] => []
  | k, x :: xs => (k, x) :: enumerate (k + 1) xs

/-- The `match_words` (`src/lib.rs:86-99`): pair each storage's enumerated
block stream, padding the shorter one with zero blocks up to the longer
one's block count (`repeat(0).enumerate().take(len).skip(len')`). -/
def match_words {W : Nat} (a b : BVec W) : List (Nat × Nat) × List (Nat × Nat) :=
  let a_len := a.storage.length
  let b_len := b.storage.length
  if a_len < b_len then
    (enumerate 0 a.storage ++ (enumerate 0 (List.replicate b_len 0)).drop a_len,
     enumerate 0 b.storage ++ (enumerate 0 (List.replicate 0 0)).drop 0)
  else
    (enumerate 0 a.storage ++ (enumerate 0 (List.replicate 0 0)).drop 0,
     enumerate 0 b.storage ++ (enumerate 0 (List.replicate a_len 0)).drop b_len)

/-- The `BitSet` (`src/lib.rs:101-103`): wraps exactly one storage. -/
structure BitSet (W : Nat) : Type where
  bit_vec : BVec W

/-- Rust tuple ordering on `(usize, B)`: first component, then second. -/
def pairCmp (p q : Nat × Nat) : Ordering :=
  (compare p.1 q.1).then (compare p.2 q.2)

/-- The `iter::order::cmp`: lexicographic comparison of two streams. -/
def listCmp : List (Nat × Nat) → List (Nat × Nat) → Ordering
  | [], [] => Ordering.eq
  | [], _ :: _ => Ordering.lt
  | _ :: _, [] => Ordering.gt
  | p :: ps, q :: qs => (pairCmp p q).then (listCmp ps qs)

/-- The `Ord::cmp` for `BitSet` (`src/lib.rs:143-149`): lexicographically
compare the zero-padded enumerated block streams. -/
def BitSet.cmp {W : Nat} (a b : BitSet W) : Ordering :=
  let p := match_words a.bit_vec b.bit_vec
  listCmp p.1 p.2

/-- The `PartialEq::eq` for `BitSet` (`src/lib.rs:151-157`): elementwise
equality of the zero-padded enumerated block streams. -/
def BitSet.beq {W : Nat} (a b : BitSet W) : Bool :=
  let p := match_words a.bit_vec b.bit_vec
  p.1 == p.2

/-- The `BitSet::new()`. -/
def BitSet.new (W : Nat) : BitSet W := ⟨⟨[], 0⟩⟩

/-- The `BitSet::other_op` (`src/lib.rs:325-352`): grow self if the other set
is longer, then for each `(i, w)` in the other's padded block stream write
`f(storage[i], w)` back into block `i` of self's storage. -/
def BitSet.other_op {W : Nat} (s other : BitSet W) (f : Nat → Nat → Nat) : BitSet W :=
  let self_bit_vec :=
    if s.bit_vec.len < other.bit_vec.len
    then s.bit_vec.grow (other.bit_vec.len - s.bit_vec.len)
    else s.bit_vec
  let other_words := (match_words self_bit_vec other.bit_vec).2
  ⟨other_words.foldl
    (fun bv p =>
      { bv with storage := bv.storage.set p.1 (f (bv.storage.getD p.1 0) p.2) })
    self_bit_vec⟩

/-- The `BitSet::union_with` (`src/lib.rs:549-551`). -/
def BitSet.union_with {W : Nat} (s other : BitSet W) : BitSet W :=
  s.other_op other (fun w1 w2 => w1 ||| w2)

/-- The `BitSet::intersect_with` (`src/lib.rs:572-575`). -/
def BitSet.intersect_with {W : Nat} (s other : BitSet W) : BitSet W :=
  s.other_op other (fun w1 w2 => w1 &&& w2)

/-- The `BitSet::difference_with` (`src/lib.rs:605-608`): `w1 & !w2` with the
`W`-bit complement `!w2 = (2^W - 1) ^^^ w2`. -/
def BitSet.difference_with {W : Nat} (s other : BitSet W) : BitSet W :=
  s.other_op other (fun w1 w2 => w1 &&& ((2 ^ W - 1) ^^^ w2))

/-- The `BitSet::symmetric_difference_with` (`src/lib.rs:630-633`). -/
def BitSet.symmetric_difference_with {W : Nat} (s other : BitSet W) : BitSet W :=
  s.other_op other (fun w1 w2 => w1 ^^^ w2)

/-- The `TwoBitPositions::next` (`src/lib.rs:886-910`): merge two block streams
with a binary op, substituting zero blocks once either stream runs out. -/
def twoBitPositions (f : Nat → Nat → Nat) : List Nat → List Nat → List Nat
  | a :: as, b :: bs => f a b :: twoBitPositions f as bs
  | a :: as, [] => f a 0 :: twoBitPositions f as []
  | [], b :: bs => f 0 b :: twoBitPositions f [] bs
  | [], [] => []

/-- The `BitSet::iter` (`src/lib.rs:403-406`) as the list of yielded positions. -/
def BitSet.iterList {W : Nat} (s : BitSet W) : List Nat :=
  from_blocks_run W s.bit_vec.storage

/-- The `BitSet::union` (`src/lib.rs:426-434`) as the list of yielded positions. -/
def BitSet.unionList {W : Nat} (a b : BitSet W) : List Nat :=
  from_blocks_run W
    (twoBitPositions (fun w1 w2 => w1 ||| w2) a.bit_vec.storage b.bit_vec.storage)

/-- The `BitSet::intersection` (`src/lib.rs:453-463`): the AND-merged position
stream truncated to `min(self.len_bits, other.len_bits)` yielded elements. -/
def BitSet.intersectionList {W : Nat} (a b : BitSet W) : List Nat :=
  (from_blocks_run W
    (twoBitPositions (fun w1 w2 => w1 &&& w2) a.bit_vec.storage b.bit_vec.storage)).take
    (min a.bit_vec.len b.bit_vec.len)

/-- The `BitSet::difference` (`src/lib.rs:490-498`). -/
def BitSet.differenceList {W : Nat} (a b : BitSet W) : List Nat :=
  from_blocks_run W
    (twoBitPositions (fun w1 w2 => w1 &&& ((2 ^ W - 1) ^^^ w2))
      a.bit_vec.storage b.bit_vec.storage)

/-- The `BitSet::symmetric_difference` (`src/lib.rs:519-527`). -/
def BitSet.symmetricDifferenceList {W : Nat} (a b : BitSet W) : List Nat :=
  from_blocks_run W
    (twoBitPositions (fun w1 w2 => w1 ^^^ w2) a.bit_vec.storage b.bit_vec.storage)

/-- The `BitSet::shrink_to_fit` (`src/lib.rs:374-386`): count the trailing
all-zero blocks, truncate the storage to `max(old_len - n, 1)` blocks, and
set the logical length to `trunc_len * W` bits. -/
def BitSet.shrink_to_fit {W : Nat} (s : BitSet W) : BitSet W :=
  let old_len := s.bit_vec.storage.length
  let n := (s.bit_vec.storage.reverse.takeWhile (· == 0)).length
  let trunc_len := max (old_len - n) 1
  ⟨{ storage := s.bit_vec.storage.take trunc_len, nbits := trunc_len * W }⟩

/-- The `BitSet::len` (`src/lib.rs:717-720`): fold popcounts over the blocks. -/
def BitSet.len {W : Nat} (s : BitSet W) : Nat :=
  s.bit_vec.storage.foldl (fun acc n => acc + count_ones n) 0

/-- The `BitSet::is_empty` (`src/lib.rs:722-726`). -/
def BitSet.is_empty {W : Nat} (s : BitSet W) : Bool := s.bit_vec.none

/-- The `BitSet::clear` (`src/lib.rs:728-732`). -/
def BitSet.clear {W : Nat} (s : BitSet W) : BitSet W := ⟨s.bit_vec.clear⟩

/-- The `BitSet::contains` (`src/lib.rs:734-739`): `value < bit_vec.len() &&
bit_vec[value]`. -/
def BitSet.contains {W : Nat} (s : BitSet W) (value : Nat) : Bool :=
  decide (value < s.bit_vec.len) && s.bit_vec.getBit value

/-- The fallible evaluation of `BitSet::contains` (`src/lib.rs:734-739`):
the guard `value < bit_vec.len()` short-circuits to false, and otherwise
the storage is indexed through `BitVec::get`, whose failure is a panic
(spec §6), modelled as none. -/
def BitSet.contains? {W : Nat} (s : BitSet W) (value : Nat) : Option Bool :=
  if value < s.bit_vec.len then s.bit_vec.get? value else Option.some false

/-- The `BitSet::is_subset` (`src/lib.rs:748-759`): `w1 & w2 == w1` for every
overlapping block pair, and every block of self past `other`'s block count
is zero. -/
def BitSet.is_subset {W : Nat} (s other : BitSet W) : Bool :=
  let other_blocks := blocks_for_bits W other.bit_vec.len
  (s.bit_vec.storage.zip other.bit_vec.storage).all (fun p => p.1 &&& p.2 == p.1) &&
  (s.bit_vec.storage.drop other_blocks).all (· == 0)

/-- The `BitSet::insert` (`src/lib.rs:767-782`): no-op returning false when
present; otherwise grow to at least `value + 1` bits if needed, set the
bit, return true.  The returned pair is (result, updated set). -/
def BitSet.insert {W : Nat} (s : BitSet W) (value : Nat) : Bool × BitSet W :=
  if s.contains value then (false, s)
  else
    let len := s.bit_vec.len
    let bv := if value ≥ len then s.bit_vec.grow (value - len + 1) else s.bit_vec
    (true, ⟨bv.set value true⟩)

/-- The `BitSet::remove` (`src/lib.rs:784-794`): clear the bit if present. -/
def BitSet.remove {W : Nat} (s : BitSet W) (value : Nat) : Bool × BitSet W :=
  if !s.contains value then (false, s)
  else (true, ⟨s.bit_vec.set value false⟩)

/-- Invariant I1 (spec §3): every physical bit at index at or beyond the
logical length is 0. -/
def BVec.I1 {W : Nat} (bv : BVec W) : Prop :=
  ∀ i, bv.nbits ≤ i → bv.getBit i = false

/-- The representation invariant maintained by the `bit-vec` storage and
the set layer: the storage holds exactly `blocks_for_bits nbits` blocks,
each block fits in `W` bits, and I1 holds. -/
def BVec.Inv {W : Nat} (bv : BVec W) : Prop :=
  bv.storage.length = blocks_for_bits W bv.nbits ∧
  (∀ b ∈ bv.storage, b < 2 ^ W) ∧ bv.I1

/-- I1 at the `BitSet` level. -/
def BitSet.I1 {W : Nat} (s : BitSet W) : Prop := s.bit_vec.I1

/-- The representation invariant at the `BitSet` level. -/
def BitSet.Inv {W : Nat} (s : BitSet W) : Prop := s.bit_vec.Inv

theorem BVec.getBit_eq_testBit {W : Nat} (bv : BVec W) (i : Nat) :
    bv.getBit i = (bv.storage.getD (i / W) 0).testBit (i % W) := by
  rw [BVec.getBit, Nat.one_shiftLeft, Nat.and_two_pow]
  cases h : (bv.storage.getD (i / W) 0).testBit (i % W) <;>
    simp [h, Nat.pos_pow_of_pos]

theorem lt_div_add_one_mul {W n : Nat} (hW : 0 < W) : n < (n / W + 1) * W := by
  have h2 : n % W < W := Nat.mod_lt _ hW
  calc n = W * (n / W) + n % W := (Nat.div_add_mod n W).symm
    _ < W * (n / W) + W := Nat.add_lt_add_left h2 _
    _ = (n / W + 1) * W := by ring

theorem blocks_for_bits_le {W m n : Nat} (h : m ≤ n) :
    blocks_for_bits W m ≤ blocks_for_bits W n := by
  rcases Nat.eq_zero_or_pos W with rfl | hW
  · simp only [blocks_for_bits, Nat.mod_zero, Nat.div_zero]
    by_cases hm : m = 0 <;> by_cases hn : n = 0 <;> simp [hm, hn] <;> omega
  · rw [blocks_for_bits, blocks_for_bits]
    have hdiv : m / W ≤ n / W := Nat.div_le_div_right h
    by_cases hm : m % W = 0 <;> by_cases hn : n % W = 0 <;> simp only [hm, hn, if_pos, if_neg, if_true, if_false]
    · exact hdiv
    · omega
    · -- m % W ≠ 0, n % W = 0: show m / W + 1 ≤ n / W, i.e. m / W < n / W
      have hmn : m < n := by
        rcases Nat.lt_or_ge m n with h1 | h1
        · exact h1
        · have : m = n := le_antisymm h h1
          subst this
          exact absurd hn hm
      have : m / W < n / W := by
        rw [Nat.div_lt_iff_lt_mul hW, Nat.div_mul_cancel (Nat.dvd_of_mod_eq_zero hn)]
        exact hmn
      omega
    · omega

theorem le_blocks_for_bits_mul {W n : Nat} (hW : 0 < W) :
    n ≤ blocks_for_bits W n * W := by
  rw [blocks_for_bits]
  by_cases h : n % W = 0
  · rw [if_pos h, Nat.div_mul_cancel (Nat.dvd_of_mod_eq_zero h)]
  · rw [if_neg h]
    exact le_of_lt (lt_div_add_one_mul hW)

theorem div_lt_blocks_for_bits {W v n : Nat} (hW : 0 < W) (h : v < n) :
    v / W < blocks_for_bits W n := by
  rw [blocks_for_bits]
  by_cases hn : n % W = 0
  · rw [if_pos hn, Nat.div_lt_iff_lt_mul hW,
      Nat.div_mul_cancel (Nat.dvd_of_mod_eq_zero hn)]
    exact h
  · rw [if_neg hn, Nat.div_lt_iff_lt_mul hW]
    exact lt_trans h (lt_div_add_one_mul hW)

theorem blocks_for_bits_mul {W k : Nat} (hW : 0 < W) :
    blocks_for_bits W (k * W) = k := by
  rw [blocks_for_bits, if_pos (Nat.mul_mod_left k W), Nat.mul_div_cancel k hW]

/-- On a state satisfying the representation invariant, the bounds guard of
`contains` keeps every storage read in range, so the fallible evaluation
`contains?` never panics and agrees with the total model `contains`. -/
theorem contains_fallible_agrees {W : Nat} (s : BitSet W) (hW : 0 < W)
    (hs : s.Inv) (v : Nat) : s.contains? v = Option.some (s.contains v) := by
  rw [BitSet.contains?, BitSet.contains, BVec.get?]
  by_cases h : v < s.bit_vec.len
  · have hlt : v / W < s.bit_vec.storage.length := by
      rw [hs.1]
      exact div_lt_blocks_for_bits hW h
    have h2 : ¬ s.bit_vec.nbits ≤ v := not_le.mpr h
    rw [if_pos h, if_neg h2, List.getElem?_eq_getElem hlt,
      decide_eq_true h, Bool.true_and, BVec.getBit,
      List.getD_eq_getElem _ _ hlt]
    rfl
  · rw [if_neg h, decide_eq_false h, Bool.false_and]

theorem getD_append_replicate_zero {l : List Nat} {k j : Nat} :
    (l ++ List.replicate k 0).getD j 0 = l.getD j 0 := by
  rcases Nat.lt_or_ge j l.length with h | h
  · rw [List.getD_eq_getElem?_getD, List.getElem?_append_left h,
      ← List.getD_eq_getElem?_getD]
  · rw [List.getD_eq_getElem?_getD, List.getElem?_append_right h,
      List.getElem?_replicate, List.getD_eq_getElem?_getD]
    rw [List.getElem?_eq_none (by omega)]
    by_cases hk : j - l.length < k <;> simp [hk]

theorem getD_map_zero {l : List Nat} {j : Nat} :
    (l.map (fun _ => (0 : Nat))).getD j 0 = 0 := by
  rw [List.getD_eq_getElem?_getD, List.getElem?_map]
  cases l[j]? <;> simp

theorem getD_set_self {l : List Nat} {j : Nat} {a : Nat} (h : j < l.length) :
    (l.set j a).getD j 0 = a := by
  rw [List.getD_eq_getElem?_getD, List.getElem?_set_self h]
  simp

theorem getD_set_ne {l : List Nat} {j k : Nat} {a : Nat} (h : k ≠ j) :
    (l.set k a).getD j 0 = l.getD j 0 := by
  rw [List.getD_eq_getElem?_getD, List.getElem?_set_ne h, ← List.getD_eq_getElem?_getD]

theorem getD_take {l : List Nat} {k j : Nat} (h : j < k) :
    (l.take k).getD j 0 = l.getD j 0 := by
  rw [List.getD_eq_getElem?_getD, List.getElem?_take_of_lt h, ← List.getD_eq_getElem?_getD]

theorem getD_mem_or_zero {l : List Nat} (j : Nat) :
    l.getD j 0 ∈ l ∨ l.getD j 0 = 0 := by
  rcases Nat.lt_or_ge j l.length with h | h
  · left
    rw [List.getD_eq_getElem?_getD, List.getElem?_eq_getElem h, Option.getD_some]
    exact List.getElem_mem h
  · right
    rw [List.getD_eq_getElem?_getD, List.getElem?_eq_none (by omega)]
    rfl

/-- Growing never changes any physical block content. -/
theorem BVec.getD_grow {W : Nat} (bv : BVec W) (n j : Nat) :
    (bv.grow n).storage.getD j 0 = bv.storage.getD j 0 :=
  getD_append_replicate_zero

/-- Growing never changes any physical bit. -/
theorem BVec.getBit_grow {W : Nat} (bv : BVec W) (n i : Nat) :
    (bv.grow n).getBit i = bv.getBit i := by
  rw [BVec.getBit_eq_testBit, BVec.getBit_eq_testBit, BVec.getD_grow]

/-- Under the length invariant, the grown storage has exactly
`blocks_for_bits (nbits + n)` blocks. -/
theorem BVec.grow_length {W : Nat} {bv : BVec W}
    (hlen : bv.storage.length = blocks_for_bits W bv.nbits) (n : Nat) :
    (bv.grow n).storage.length = blocks_for_bits W (bv.nbits + n) := by
  rw [BVec.grow]
  simp only [List.length_append, List.length_replicate]
  have := blocks_for_bits_le (W := W) (Nat.le_add_right bv.nbits n)
  omega

theorem BVec.grow_Inv {W : Nat} {bv : BVec W} (hInv : bv.Inv) (n : Nat) :
    (bv.grow n).Inv := by
  obtain ⟨hlen, hbound, hI1⟩ := hInv
  refine ⟨BVec.grow_length hlen n, ?_, ?_⟩
  · intro b hb
    rcases List.mem_append.mp hb with h | h
    · exact hbound b h
    · rcases List.eq_of_mem_replicate h with rfl
      exact Nat.pos_pow_of_pos W (by omega)
  · intro i hi
    rw [BVec.getBit_grow]
    exact hI1 i (by simp only [BVec.grow] at hi; omega)

/-- Setting bit `i` to true (with bit `i`'s block allocated) sets exactly
that bit. -/
theorem BVec.getBit_set_true {W : Nat} (bv : BVec W) (i u : Nat) (hW : 0 < W)
    (hlen : i / W < bv.storage.length) :
    (bv.set i true).getBit u = (bv.getBit u || u == i) := by
  rw [BVec.getBit_eq_testBit, BVec.getBit_eq_testBit]
  show ((bv.storage.set (i / W)
      (bv.storage.getD (i / W) 0 ||| 1 <<< (i % W))).getD (u / W) 0).testBit (u % W) = _
  by_cases hb : u / W = i / W
  · rw [hb, getD_set_self hlen, Nat.one_shiftLeft, Nat.testBit_or, Nat.testBit_two_pow]
    by_cases he : u = i
    · subst he
      simp
    · have hmod : ¬ (i % W = u % W) := by
        intro hc
        apply he
        have hu := Nat.div_add_mod u W
        have hi := Nat.div_add_mod i W
        rw [← hb, hc] at hi
        omega
      simp [hmod, he]
  · rw [getD_set_ne (by omega)]
    have hne : (u == i) = false := by
      apply beq_eq_false_iff_ne.mpr
      intro hc
      subst hc
      exact hb rfl
    rw [hne, Bool.or_false]

/-- Clearing bit `i` clears exactly that bit (no-op on unallocated blocks,
where the bit already reads 0). -/
theorem BVec.getBit_set_false {W : Nat} (bv : BVec W) (i u : Nat) (hW : 0 < W) :
    (bv.set i false).getBit u = (bv.getBit u && !(u == i)) := by
  rw [BVec.getBit_eq_testBit, BVec.getBit_eq_testBit]
  show ((bv.storage.set (i / W)
      (bv.storage.getD (i / W) 0 &&& ((2 ^ W - 1) ^^^ 1 <<< (i % W)))).getD
        (u / W) 0).testBit (u % W) = _
  rcases Nat.lt_or_ge (i / W) bv.storage.length with hlen | hlen
  · by_cases hb : u / W = i / W
    · rw [hb, getD_set_self hlen, Nat.one_shiftLeft, Nat.testBit_and, Nat.testBit_xor,
        Nat.testBit_two_pow_sub_one, Nat.testBit_two_pow]
      have hmW : u % W < W := Nat.mod_lt _ hW
      by_cases he : u = i
      · subst he
        simp [hmW]
      · have hmod : ¬ (i % W = u % W) := by
          intro hc
          apply he
          have hu := Nat.div_add_mod u W
          have hi := Nat.div_add_mod i W
          rw [← hb, hc] at hi
          omega
        simp [hmod, he, hmW]
    · rw [getD_set_ne (by omega)]
      have hne : (u == i) = false := by
        apply beq_eq_false_iff_ne.mpr
        intro hc
        subst hc
        exact hb rfl
      rw [hne]
      simp
  · rw [List.set_eq_of_length_le (by omega)]
    by_cases he : u = i
    · subst he
      have hz : bv.storage[u / W]? = (Option.none : Option Nat) :=
        List.getElem?_eq_none (by omega)
      simp [List.getD_eq_getElem?_getD, hz]
    · simp [he]

theorem BVec.set_nbits {W : Nat} (bv : BVec W) (i : Nat) (v : Bool) :
    (bv.set i v).nbits = bv.nbits := rfl

theorem BVec.set_length {W : Nat} (bv : BVec W) (i : Nat) (v : Bool) :
    (bv.set i v).storage.length = bv.storage.length := by
  rw [BVec.set]
  exact List.length_set _ _ _

/-- The `set` preserves the representation invariant when the target bit is
within the logical length. -/
theorem BVec.set_Inv {W : Nat} {bv : BVec W} (hInv : bv.Inv) (hW : 0 < W)
    {i : Nat} (hi : i < bv.nbits) (v : Bool) : (bv.set i v).Inv := by
  obtain ⟨hlen, hbound, hI1⟩ := hInv
  have hiblk : i / W < bv.storage.length := by
    rw [hlen]
    exact div_lt_blocks_for_bits hW hi
  refine ⟨by rw [BVec.set_length, hlen, BVec.set_nbits], ?_, ?_⟩
  · intro b hb
    rcases List.mem_or_eq_of_mem_set hb with h | rfl
    · exact hbound b h
    · have hflag : 1 <<< (i % W) < 2 ^ W := by
        rw [Nat.one_shiftLeft]
        exact Nat.pow_lt_pow_right (by omega) (Nat.mod_lt _ hW)
      have hold : bv.storage.getD (i / W) 0 < 2 ^ W := by
        rcases getD_mem_or_zero (l := bv.storage) (i / W) with h | h
        · exact hbound _ h
        · rw [h]; exact Nat.pos_pow_of_pos W (by omega)
      cases v
      · exact Nat.and_lt_two_pow _ (Nat.xor_lt_two_pow (by omega) hflag)
      · exact Nat.or_lt_two_pow hold hflag
  · intro u hu
    cases v
    · rw [BVec.set_nbits] at hu
      rw [BVec.getBit_set_false bv i u hW, hI1 u hu]
      rfl
    · rw [BVec.set_nbits] at hu
      rw [BVec.getBit_set_true bv i u hW hiblk, hI1 u hu]
      have : (u == i) = false := beq_eq_false_iff_ne.mpr (by omega)
      rw [this]
      rfl

theorem BVec.getBit_clear {W : Nat} (bv : BVec W) (i : Nat) :
    bv.clear.getBit i = false := by
  rw [BVec.getBit_eq_testBit, BVec.clear]
  show ((bv.storage.map fun _ => 0).getD (i / W) 0).testBit (i % W) = false
  rw [getD_map_zero]
  exact Nat.zero_testBit _

theorem BVec.clear_Inv {W : Nat} {bv : BVec W} (hInv : bv.Inv) : bv.clear.Inv := by
  obtain ⟨hlen, hbound, hI1⟩ := hInv
  refine ⟨?_, ?_, ?_⟩
  · show (bv.storage.map fun _ => 0).length = _
    rw [List.length_map]
    exact hlen
  · intro b hb
    rcases List.mem_map.mp hb with ⟨c, _, rfl⟩
    exact Nat.pos_pow_of_pos W (by omega)
  · intro u _
    exact BVec.getBit_clear bv u

/-- Under I1 the `value < len` guard in `contains` is redundant: membership
is exactly the raw physical bit. -/
theorem BitSet.contains_eq_getBit {W : Nat} {s : BitSet W} (h : s.I1) (v : Nat) :
    s.contains v = s.bit_vec.getBit v := by
  show (decide (v < s.bit_vec.nbits) && s.bit_vec.getBit v) = s.bit_vec.getBit v
  rcases Nat.lt_or_ge v s.bit_vec.nbits with hv | hv
  · rw [decide_eq_true hv, Bool.true_and]
  · rw [decide_eq_false (by omega), Bool.false_and, h v hv]

theorem enumerate_append (k : Nat) (x y : List Nat) :
    enumerate k (x ++ y) = enumerate k x ++ enumerate (k + x.length) y := by
  induction x generalizing k with
  | nil => simp [enumerate]
  | cons a xs ih =>
    rw [List.cons_append, enumerate, enumerate, ih (k + 1), List.cons_append]
    have h1 : k + 1 + xs.length = k + (a :: xs).length := by
      rw [List.length_cons]; omega
    rw [h1]

theorem enumerate_replicate_drop :
    ∀ (m n k : Nat), (enumerate k (List.replicate n (0 : Nat))).drop m =
      enumerate (k + m) (List.replicate (n - m) (0 : Nat)) := by
  intro m
  induction m with
  | zero => intro n k; simp
  | succ m ih =>
    intro n k
    cases n with
    | zero => simp [enumerate]
    | succ n =>
      rw [List.replicate_succ, enumerate, List.drop_succ_cons, ih n (k + 1)]
      have h1 : n + 1 - (m + 1) = n - m := by omega
      have h2 : k + 1 + m = k + (m + 1) := by omega
      rw [h1, h2]

theorem pad_stream_eq {l : List Nat} {L : Nat} (h : l.length ≤ L) :
    enumerate 0 l ++ (enumerate 0 (List.replicate L (0 : Nat))).drop l.length =
      enumerate 0 (l ++ List.replicate (L - l.length) 0) := by
  rw [enumerate_append, enumerate_replicate_drop]

/-- The `match_words` produces the two enumerated block streams, each zero-padded
up to the longer storage's block count. -/
theorem match_words_eq {W : Nat} (a b : BVec W) :
    match_words a b =
      (enumerate 0 (a.storage ++
        List.replicate (max a.storage.length b.storage.length - a.storage.length) 0),
       enumerate 0 (b.storage ++
        List.replicate (max a.storage.length b.storage.length - b.storage.length) 0)) := by
  rw [match_words]
  by_cases h : a.storage.length < b.storage.length
  · rw [if_pos h]
    have hmax : max a.storage.length b.storage.length = b.storage.length := by omega
    rw [hmax]
    refine Prod.ext ?_ ?_
    · show enumerate 0 a.storage ++ _ = _
      exact pad_stream_eq (by omega)
    · show enumerate 0 b.storage ++ _ = _
      simp [enumerate]
  · rw [if_neg h]
    have hmax : max a.storage.length b.storage.length = a.storage.length := by omega
    rw [hmax]
    refine Prod.ext ?_ ?_
    · show enumerate 0 a.storage ++ _ = _
      simp [enumerate]
    · show enumerate 0 b.storage ++ _ = _
      exact pad_stream_eq (by omega)

theorem take_set_succ :
    ∀ (l : List Nat) (k : Nat) (a : Nat), k < l.length →
      (l.set k a).take (k + 1) = l.take k ++ [a] := by
  intro l
  induction l with
  | nil => intro k a h; simp at h
  | cons x xs ih =>
    intro k a h
    cases k with
    | zero => simp
    | succ k =>
      rw [List.set_cons_succ, List.take_succ_cons, List.take_succ_cons,
        ih k a (by simp at h; omega), List.cons_append]

theorem drop_set_succ :
    ∀ (l : List Nat) (k : Nat) (a : Nat), (l.set k a).drop (k + 1) = l.drop (k + 1) := by
  intro l
  induction l with
  | nil => intro k a; simp
  | cons x xs ih =>
    intro k a
    cases k with
    | zero => simp
    | succ k =>
      rw [List.set_cons_succ, List.drop_succ_cons, List.drop_succ_cons, ih k a]

theorem drop_eq_getD_cons {l : List Nat} {k : Nat} (h : k < l.length) :
    l.drop k = l.getD k 0 :: l.drop (k + 1) := by
  rw [List.drop_eq_getElem_cons h, List.getD_eq_getElem?_getD, List.getElem?_eq_getElem h,
    Option.getD_some]

/-- The `other_op` write-back loop: folding the enumerated word stream over
the storage rewrites each block `i` to `f (storage[i], w_i)`. -/
theorem foldl_set_words {W : Nat} (f : Nat → Nat → Nat) :
    ∀ (p : List Nat) (bv : BVec W) (k : Nat), k + p.length = bv.storage.length →
      ((enumerate k p).foldl
        (fun bv q =>
          { bv with storage := bv.storage.set q.1 (f (bv.storage.getD q.1 0) q.2) })
        bv)
      = { bv with storage := bv.storage.take k ++ List.zipWith f (bv.storage.drop k) p } := by
  intro p
  induction p with
  | nil =>
    intro bv k hk
    rw [enumerate, List.foldl_nil]
    have hk0 : k = bv.storage.length := by simpa using hk
    have h1 : bv.storage.take k ++ List.zipWith f (bv.storage.drop k) [] = bv.storage := by
      rw [List.zipWith_nil_right, List.append_nil]
      exact List.take_all_of_le (by omega)
    rw [h1]
  | cons x xs ih =>
    intro bv k hk
    have hk' : k + (xs.length + 1) = bv.storage.length := by simpa using hk
    have hklen : k < bv.storage.length := by omega
    rw [enumerate, List.foldl_cons]
    rw [ih _ (k + 1) (by simp only [List.length_set]; omega)]
    have h2 : (bv.storage.set k (f (bv.storage.getD k 0) x)).take (k + 1) =
        bv.storage.take k ++ [f (bv.storage.getD k 0) x] :=
      take_set_succ _ _ _ hklen
    have h3 : (bv.storage.set k (f (bv.storage.getD k 0) x)).drop (k + 1) =
        bv.storage.drop (k + 1) := drop_set_succ _ _ _
    have h4 : bv.storage.drop k = bv.storage.getD k 0 :: bv.storage.drop (k + 1) :=
      drop_eq_getD_cons hklen
    rw [h2, h3, h4, List.zipWith_cons_cons, List.append_assoc, List.singleton_append]

theorem zipWith_getD {f : Nat → Nat → Nat} :
    ∀ (a b : List Nat) (j : Nat), j < a.length → j < b.length →
      (List.zipWith f a b).getD j 0 = f (a.getD j 0) (b.getD j 0) := by
  intro a
  induction a with
  | nil => intro b j h _; simp at h
  | cons x xs ih =>
    intro b j ha hb
    cases b with
    | nil => simp at hb
    | cons y ys =>
      cases j with
      | zero => simp
      | succ j =>
        rw [List.zipWith_cons_cons]
        simp only [List.getD_cons_succ]
        exact ih ys j (by simp at ha; omega) (by simp at hb; omega)

/-- The storage `other_op` starts from: self, grown (with false fill) when
the other set's bit length is larger. -/
def grownSelf {W : Nat} (s o : BitSet W) : BVec W :=
  if s.bit_vec.len < o.bit_vec.len
  then s.bit_vec.grow (o.bit_vec.len - s.bit_vec.len)
  else s.bit_vec

theorem other_op_def {W : Nat} (s o : BitSet W) (f : Nat → Nat → Nat) :
    s.other_op o f =
      ⟨((match_words (grownSelf s o) o.bit_vec).2).foldl
        (fun bv p =>
          { bv with storage := bv.storage.set p.1 (f (bv.storage.getD p.1 0) p.2) })
        (grownSelf s o)⟩ := rfl

theorem grownSelf_nbits {W : Nat} (s o : BitSet W) :
    (grownSelf s o).nbits = max s.bit_vec.nbits o.bit_vec.nbits := by
  rw [grownSelf]
  by_cases h : s.bit_vec.len < o.bit_vec.len
  · rw [if_pos h]
    have h' : s.bit_vec.nbits < o.bit_vec.nbits := h
    show s.bit_vec.nbits + (o.bit_vec.nbits - s.bit_vec.nbits) = _
    omega
  · rw [if_neg h]
    have h' : ¬ s.bit_vec.nbits < o.bit_vec.nbits := h
    omega

theorem grownSelf_getD {W : Nat} (s o : BitSet W) (j : Nat) :
    (grownSelf s o).storage.getD j 0 = s.bit_vec.storage.getD j 0 := by
  rw [grownSelf]
  by_cases h : s.bit_vec.len < o.bit_vec.len
  · rw [if_pos h]
    exact BVec.getD_grow _ _ _
  · rw [if_neg h]

theorem grownSelf_length {W : Nat} {s : BitSet W} (o : BitSet W) (hs : s.Inv) :
    (grownSelf s o).storage.length =
      blocks_for_bits W (max s.bit_vec.nbits o.bit_vec.nbits) := by
  rw [grownSelf]
  by_cases h : s.bit_vec.len < o.bit_vec.len
  · rw [if_pos h]
    have h' : s.bit_vec.nbits < o.bit_vec.nbits := h
    rw [BVec.grow_length hs.1]
    have he : s.bit_vec.nbits + (o.bit_vec.nbits - s.bit_vec.nbits) = o.bit_vec.nbits := by
      omega
    show (blocks_for_bits W (s.bit_vec.nbits + (o.bit_vec.nbits - s.bit_vec.nbits))) = _
    rw [he]
    congr 1
    omega
  · rw [if_neg h]
    have h' : ¬ s.bit_vec.nbits < o.bit_vec.nbits := h
    rw [hs.1]
    congr 1
    omega

theorem grownSelf_Inv {W : Nat} {s : BitSet W} (o : BitSet W) (hs : s.Inv) :
    (grownSelf s o).Inv := by
  rw [grownSelf]
  by_cases h : s.bit_vec.len < o.bit_vec.len
  · rw [if_pos h]
    exact BVec.grow_Inv hs _
  · rw [if_neg h]
    exact hs

/-- The `other_op` in closed form: the result's storage is the blockwise `f`
of the grown self storage with the zero-padded other storage, and the
logical length is the larger of the two inputs'. -/
theorem other_op_bit_vec {W : Nat} {s o : BitSet W} (f : Nat → Nat → Nat)
    (hs : s.Inv) (ho : o.Inv) :
    (s.other_op o f).bit_vec =
      { storage := List.zipWith f (grownSelf s o).storage
          (o.bit_vec.storage ++
            List.replicate ((grownSelf s o).storage.length - o.bit_vec.storage.length) 0),
        nbits := (grownSelf s o).nbits } := by
  have hge : o.bit_vec.storage.length ≤ (grownSelf s o).storage.length := by
    rw [grownSelf_length o hs, ho.1]
    exact blocks_for_bits_le (by omega)
  have hmw : (match_words (grownSelf s o) o.bit_vec).2 =
      enumerate 0 (o.bit_vec.storage ++
        List.replicate ((grownSelf s o).storage.length - o.bit_vec.storage.length) 0) := by
    rw [match_words_eq]
    have hmax : max (grownSelf s o).storage.length o.bit_vec.storage.length =
        (grownSelf s o).storage.length := by omega
    rw [hmax]
  rw [other_op_def, hmw]
  have hlen : (0 : Nat) + (o.bit_vec.storage ++
      List.replicate ((grownSelf s o).storage.length - o.bit_vec.storage.length) 0).length =
      (grownSelf s o).storage.length := by
    simp only [List.length_append, List.length_replicate]
    omega
  rw [foldl_set_words _ _ _ _ hlen]
  simp

theorem other_op_nbits {W : Nat} {s o : BitSet W} (f : Nat → Nat → Nat)
    (hs : s.Inv) (ho : o.Inv) :
    (s.other_op o f).bit_vec.nbits = max s.bit_vec.nbits o.bit_vec.nbits := by
  rw [other_op_bit_vec f hs ho]
  exact grownSelf_nbits s o

theorem other_op_length {W : Nat} {s o : BitSet W} (f : Nat → Nat → Nat)
    (hs : s.Inv) (ho : o.Inv) :
    (s.other_op o f).bit_vec.storage.length =
      blocks_for_bits W (max s.bit_vec.nbits o.bit_vec.nbits) := by
  have hge : o.bit_vec.storage.length ≤ (grownSelf s o).storage.length := by
    rw [grownSelf_length o hs, ho.1]
    exact blocks_for_bits_le (by omega)
  rw [other_op_bit_vec f hs ho]
  show (List.zipWith _ _ _).length = _
  rw [List.length_zipWith]
  simp only [List.length_append, List.length_replicate]
  rw [grownSelf_length o hs] at hge ⊢
  omega

theorem other_op_getD {W : Nat} {s o : BitSet W} (f : Nat → Nat → Nat)
    (hs : s.Inv) (ho : o.Inv) {j : Nat}
    (hj : j < (s.other_op o f).bit_vec.storage.length) :
    (s.other_op o f).bit_vec.storage.getD j 0 =
      f (s.bit_vec.storage.getD j 0) (o.bit_vec.storage.getD j 0) := by
  have hge : o.bit_vec.storage.length ≤ (grownSelf s o).storage.length := by
    rw [grownSelf_length o hs, ho.1]
    exact blocks_for_bits_le (by omega)
  have hL : (s.other_op o f).bit_vec.storage.length = (grownSelf s o).storage.length := by
    rw [other_op_length f hs ho, grownSelf_length o hs]
  rw [hL] at hj
  rw [other_op_bit_vec f hs ho]
  show (List.zipWith f _ _).getD j 0 = _
  rw [zipWith_getD _ _ j hj (by simp only [List.length_append, List.length_replicate]; omega),
    grownSelf_getD, getD_append_replicate_zero]

/-- Blockwise `f` acts bitwise as `g` on the raw physical bits: the block
combine step of `other_op` is pointwise on bit positions. -/
theorem other_op_getBit {W : Nat} {s o : BitSet W} (f : Nat → Nat → Nat)
    (g : Bool → Bool → Bool) (hs : s.Inv) (ho : o.Inv) (hW : 0 < W)
    (hg : ∀ x y t, x < 2 ^ W → y < 2 ^ W →
      (f x y).testBit t = g (x.testBit t) (y.testBit t))
    (hgff : g false false = false) (v : Nat) :
    (s.other_op o f).bit_vec.getBit v = g (s.bit_vec.getBit v) (o.bit_vec.getBit v) := by
  have hp : (0 : Nat) < 2 ^ W := Nat.pos_pow_of_pos W (by omega)
  have hsb : s.bit_vec.storage.getD (v / W) 0 < 2 ^ W := by
    rcases getD_mem_or_zero (l := s.bit_vec.storage) (v / W) with h | h
    · exact hs.2.1 _ h
    · omega
  have hob : o.bit_vec.storage.getD (v / W) 0 < 2 ^ W := by
    rcases getD_mem_or_zero (l := o.bit_vec.storage) (v / W) with h | h
    · exact ho.2.1 _ h
    · omega
  rw [BVec.getBit_eq_testBit, BVec.getBit_eq_testBit, BVec.getBit_eq_testBit]
  rcases Nat.lt_or_ge (v / W) ((s.other_op o f).bit_vec.storage.length) with hj | hj
  · rw [other_op_getD f hs ho hj]
    exact hg _ _ _ hsb hob
  · have hz : (s.other_op o f).bit_vec.storage.getD (v / W) 0 = 0 := by
      rw [List.getD_eq_getElem?_getD, List.getElem?_eq_none (by omega)]
      rfl
    have hzs : s.bit_vec.storage.getD (v / W) 0 = 0 := by
      rw [List.getD_eq_getElem?_getD, List.getElem?_eq_none ?_]
      · rfl
      · rw [other_op_length f hs ho] at hj
        rw [hs.1]
        have := blocks_for_bits_le (W := W)
          (Nat.le_max_left s.bit_vec.nbits o.bit_vec.nbits)
        omega
    have hzo : o.bit_vec.storage.getD (v / W) 0 = 0 := by
      rw [List.getD_eq_getElem?_getD, List.getElem?_eq_none ?_]
      · rfl
      · rw [other_op_length f hs ho] at hj
        rw [ho.1]
        have := blocks_for_bits_le (W := W)
          (Nat.le_max_right s.bit_vec.nbits o.bit_vec.nbits)
        omega
    rw [hz, hzs, hzo, Nat.zero_testBit, hgff]

/-- The `other_op` preserves the representation invariant whenever the block
combine function is `2^W`-bounded and cannot turn two 0 bits into a 1. -/
theorem other_op_Inv {W : Nat} {s o : BitSet W} (f : Nat → Nat → Nat)
    (g : Bool → Bool → Bool) (hs : s.Inv) (ho : o.Inv) (hW : 0 < W)
    (hg : ∀ x y t, x < 2 ^ W → y < 2 ^ W →
      (f x y).testBit t = g (x.testBit t) (y.testBit t))
    (hgff : g false false = false)
    (hfb : ∀ x y, x < 2 ^ W → y < 2 ^ W → f x y < 2 ^ W) :
    (s.other_op o f).Inv := by
  have hp : (0 : Nat) < 2 ^ W := Nat.pos_pow_of_pos W (by omega)
  refine ⟨?_, ?_, ?_⟩
  · rw [other_op_length f hs ho, other_op_nbits f hs ho]
  · intro b hb
    rcases List.mem_iff_getElem.mp hb with ⟨i, hi, rfl⟩
    have hgd : (s.other_op o f).bit_vec.storage.getD i 0 =
        (s.other_op o f).bit_vec.storage[i] := by
      rw [List.getD_eq_getElem?_getD, List.getElem?_eq_getElem hi, Option.getD_some]
    rw [← hgd, other_op_getD f hs ho hi]
    have hsb : s.bit_vec.storage.getD i 0 < 2 ^ W := by
      rcases getD_mem_or_zero (l := s.bit_vec.storage) i with h | h
      · exact hs.2.1 _ h
      · omega
    have hob : o.bit_vec.storage.getD i 0 < 2 ^ W := by
      rcases getD_mem_or_zero (l := o.bit_vec.storage) i with h | h
      · exact ho.2.1 _ h
      · omega
    exact hfb _ _ hsb hob
  · intro u hu
    rw [other_op_nbits f hs ho] at hu
    rw [other_op_getBit f g hs ho hW hg hgff u,
      hs.2.2 u (by omega), ho.2.2 u (by omega), hgff]

theorem testBit_or_spec {W : Nat} :
    ∀ x y t : Nat, x < 2 ^ W → y < 2 ^ W →
      ((fun w1 w2 => w1 ||| w2) x y).testBit t = (x.testBit t || y.testBit t) :=
  fun x y t _ _ => Nat.testBit_or x y t

theorem testBit_and_spec {W : Nat} :
    ∀ x y t : Nat, x < 2 ^ W → y < 2 ^ W →
      ((fun w1 w2 => w1 &&& w2) x y).testBit t = (x.testBit t && y.testBit t) :=
  fun x y t _ _ => Nat.testBit_and x y t

theorem testBit_xor_spec {W : Nat} :
    ∀ x y t : Nat, x < 2 ^ W → y < 2 ^ W →
      ((fun w1 w2 => w1 ^^^ w2) x y).testBit t = (x.testBit t ^^ y.testBit t) :=
  fun x y t _ _ => Nat.testBit_xor x y t

theorem testBit_diff_spec {W : Nat} :
    ∀ x y t : Nat, x < 2 ^ W → y < 2 ^ W →
      ((fun w1 w2 => w1 &&& ((2 ^ W - 1) ^^^ w2)) x y).testBit t =
        (x.testBit t && !(y.testBit t)) := by
  intro x y t hx hy
  show (x &&& ((2 ^ W - 1) ^^^ y)).testBit t = _
  rw [Nat.testBit_and, Nat.testBit_xor, Nat.testBit_two_pow_sub_one]
  rcases Nat.lt_or_ge t W with ht | ht
  · simp [ht]
  · have hxt : x.testBit t = false :=
      Nat.testBit_lt_two_pow (lt_of_lt_of_le hx (Nat.pow_le_pow_right (by omega) ht))
    have hnt : ¬ t < W := by omega
    simp [hxt, hnt]

theorem bound_or_spec {W : Nat} :
    ∀ x y : Nat, x < 2 ^ W → y < 2 ^ W → (fun w1 w2 => w1 ||| w2) x y < 2 ^ W :=
  fun _ _ hx hy => Nat.or_lt_two_pow hx hy

theorem bound_and_spec {W : Nat} :
    ∀ x y : Nat, x < 2 ^ W → y < 2 ^ W → (fun w1 w2 => w1 &&& w2) x y < 2 ^ W :=
  fun _ _ _ hy => Nat.and_lt_two_pow _ hy

theorem bound_xor_spec {W : Nat} :
    ∀ x y : Nat, x < 2 ^ W → y < 2 ^ W → (fun w1 w2 => w1 ^^^ w2) x y < 2 ^ W :=
  fun _ _ hx hy => Nat.xor_lt_two_pow hx hy

theorem bound_diff_spec {W : Nat} :
    ∀ x y : Nat, x < 2 ^ W → y < 2 ^ W →
      (fun w1 w2 => w1 &&& ((2 ^ W - 1) ^^^ w2)) x y < 2 ^ W := by
  intro x y hx hy
  have h1 : 2 ^ W - 1 < 2 ^ W := by
    have := Nat.pos_pow_of_pos W (show 0 < 2 by omega)
    omega
  exact Nat.and_lt_two_pow _ (Nat.xor_lt_two_pow h1 hy)

theorem twoBitPositions_getD (f : Nat → Nat → Nat) (hf0 : f 0 0 = 0) :
    ∀ (as bs : List Nat) (j : Nat),
      (twoBitPositions f as bs).getD j 0 = f (as.getD j 0) (bs.getD j 0) := by
  intro as
  induction as with
  | nil =>
    intro bs
    induction bs with
    | nil => intro j; simp [twoBitPositions, hf0]
    | cons b bs ihb =>
      intro j
      cases j with
      | zero => simp [twoBitPositions]
      | succ j =>
        rw [twoBitPositions]
        simp only [List.getD_cons_succ]
        exact ihb j
  | cons a as iha =>
    intro bs j
    cases bs with
    | nil =>
      cases j with
      | zero => simp [twoBitPositions]
      | succ j =>
        rw [twoBitPositions]
        simp only [List.getD_cons_succ]
        exact iha [] j
    | cons b bs =>
      cases j with
      | zero => simp [twoBitPositions]
      | succ j =>
        rw [twoBitPositions]
        simp only [List.getD_cons_succ]
        exact iha bs j

theorem twoBitPositions_length (f : Nat → Nat → Nat) :
    ∀ (as bs : List Nat),
      (twoBitPositions f as bs).length = max as.length bs.length := by
  intro as
  induction as with
  | nil =>
    intro bs
    induction bs with
    | nil => simp [twoBitPositions]
    | cons b bs ihb =>
      rw [twoBitPositions]
      simp only [List.length_cons, ihb]
      simp
  | cons a as iha =>
    intro bs
    cases bs with
    | nil =>
      rw [twoBitPositions]
      simp only [List.length_cons, iha []]
      simp
    | cons b bs =>
      rw [twoBitPositions]
      simp only [List.length_cons, iha bs]
      omega

theorem twoBitPositions_bound {W : Nat} (f : Nat → Nat → Nat)
    (hfb : ∀ x y : Nat, x < 2 ^ W → y < 2 ^ W → f x y < 2 ^ W) :
    ∀ (as bs : List Nat), (∀ x ∈ as, x < 2 ^ W) → (∀ y ∈ bs, y < 2 ^ W) →
      ∀ z ∈ twoBitPositions f as bs, z < 2 ^ W := by
  have hp : (0 : Nat) < 2 ^ W := Nat.pos_pow_of_pos W (by omega)
  intro as
  induction as with
  | nil =>
    intro bs
    induction bs with
    | nil => intro _ _ z hz; simp [twoBitPositions] at hz
    | cons b bs ihb =>
      intro _ hbs z hz
      rw [twoBitPositions] at hz
      rcases List.mem_cons.mp hz with rfl | hz'
      · exact hfb _ _ hp (hbs b (List.mem_cons_self _ _))
      · exact ihb (by simp) (fun y hy => hbs y (List.mem_cons_of_mem _ hy)) z hz'
  | cons a as iha =>
    intro bs has hbs z hz
    cases bs with
    | nil =>
      rw [twoBitPositions] at hz
      rcases List.mem_cons.mp hz with rfl | hz'
      · exact hfb _ _ (has a (List.mem_cons_self _ _)) hp
      · exact iha [] (fun x hx => has x (List.mem_cons_of_mem _ hx)) (by simp) z hz'
    | cons b bs =>
      rw [twoBitPositions] at hz
      rcases List.mem_cons.mp hz with rfl | hz'
      · exact hfb _ _ (has a (List.mem_cons_self _ _)) (hbs b (List.mem_cons_self _ _))
      · exact iha bs (fun x hx => has x (List.mem_cons_of_mem _ hx))
          (fun y hy => hbs y (List.mem_cons_of_mem _ hy)) z hz'

theorem mem_iterList {W : Nat} {s : BitSet W} (hs : s.Inv) (hW : 0 < W) (v : Nat) :
    v ∈ s.iterList ↔ s.bit_vec.getBit v = true := by
  rw [BitSet.iterList, from_blocks_run_eq hs.2.1,
    mem_specList hW s.bit_vec.storage 0 v hs.2.1, BVec.getBit_eq_testBit]
  simp

theorem sorted_iterList {W : Nat} {s : BitSet W} (hs : s.Inv) : 
    List.Sorted (· < ·) s.iterList := by
  rw [BitSet.iterList, from_blocks_run_eq hs.2.1]
  exact sorted_specList s.bit_vec.storage 0 hs.2.1

/-- Membership in a merged two-stream position list is the pointwise `g` of
the two raw bits. -/
theorem mem_opList {W : Nat} {a b : BitSet W} (f : Nat → Nat → Nat)
    (g : Bool → Bool → Bool) (ha : a.Inv) (hb : b.Inv) (hW : 0 < W)
    (hf0 : f 0 0 = 0)
    (hg : ∀ x y t : Nat, x < 2 ^ W → y < 2 ^ W →
      (f x y).testBit t = g (x.testBit t) (y.testBit t))
    (hfb : ∀ x y : Nat, x < 2 ^ W → y < 2 ^ W → f x y < 2 ^ W) (v : Nat) :
    v ∈ from_blocks_run W (twoBitPositions f a.bit_vec.storage b.bit_vec.storage) ↔
      g (a.bit_vec.getBit v) (b.bit_vec.getBit v) = true := by
  have hp : (0 : Nat) < 2 ^ W := Nat.pos_pow_of_pos W (by omega)
  have hbound := twoBitPositions_bound f hfb _ _ ha.2.1 hb.2.1
  have hA : a.bit_vec.storage.getD (v / W) 0 < 2 ^ W := by
    rcases getD_mem_or_zero (l := a.bit_vec.storage) (v / W) with h | h
    · exact ha.2.1 _ h
    · omega
  have hB : b.bit_vec.storage.getD (v / W) 0 < 2 ^ W := by
    rcases getD_mem_or_zero (l := b.bit_vec.storage) (v / W) with h | h
    · exact hb.2.1 _ h
    · omega
  rw [from_blocks_run_eq hbound, mem_specList hW _ 0 v hbound]
  simp only [Nat.sub_zero]
  rw [twoBitPositions_getD f hf0, hg _ _ _ hA hB,
    BVec.getBit_eq_testBit, BVec.getBit_eq_testBit]
  simp

theorem sorted_opList {W : Nat} {a b : BitSet W} (f : Nat → Nat → Nat)
    (ha : a.Inv) (hb : b.Inv)
    (hfb : ∀ x y : Nat, x < 2 ^ W → y < 2 ^ W → f x y < 2 ^ W) :
    List.Sorted (· < ·)
      (from_blocks_run W (twoBitPositions f a.bit_vec.storage b.bit_vec.storage)) := by
  have hbound := twoBitPositions_bound f hfb _ _ ha.2.1 hb.2.1
  rw [from_blocks_run_eq hbound]
  exact sorted_specList _ 0 hbound

theorem sorted_length_le {m : Nat} {l : List Nat} (hs : List.Sorted (· < ·) l)
    (hub : ∀ x ∈ l, x < m) : l.length ≤ m := by
  have hnodup : l.Nodup := hs.nodup
  have hsub : l.toFinset ⊆ Finset.range m := fun x hx =>
    Finset.mem_range.mpr (hub x (List.mem_toFinset.mp hx))
  have hcard := Finset.card_le_card hsub
  rw [List.toFinset_card_of_nodup hnodup] at hcard
  simpa using hcard

/-- A raw set bit always lies below the logical length (contrapositive of
I1). -/
theorem getBit_lt_nbits {W : Nat} {bv : BVec W} (h : bv.I1) {v : Nat}
    (hv : bv.getBit v = true) : v < bv.nbits := by
  by_contra hc
  rw [h v (by omega)] at hv
  cases hv

/-- The `take min` in `intersection` drops nothing: the untruncated AND
merge already yields fewer than `min` positions. -/
theorem intersectionList_eq_untruncated {W : Nat} {a b : BitSet W}
    (ha : a.Inv) (hb : b.Inv) (hW : 0 < W) :
    a.intersectionList b =
      from_blocks_run W
        (twoBitPositions (fun w1 w2 => w1 &&& w2) a.bit_vec.storage b.bit_vec.storage) := by
  rw [BitSet.intersectionList]
  apply List.take_all_of_le
  have hsorted := sorted_opList (fun w1 w2 => w1 &&& w2) ha hb
    (bound_and_spec (W := W))
  have hub : ∀ x ∈ from_blocks_run W
      (twoBitPositions (fun w1 w2 => w1 &&& w2) a.bit_vec.storage b.bit_vec.storage),
      x < min a.bit_vec.len b.bit_vec.len := by
    intro x hx
    have hmem := (mem_opList (fun w1 w2 => w1 &&& w2) (fun p q => p && q) ha hb hW
      rfl (testBit_and_spec (W := W)) (bound_and_spec (W := W)) x).mp hx
    rcases Bool.and_eq_true_iff.mp hmem with ⟨hxa, hxb⟩
    have h1 := getBit_lt_nbits ha.2.2 hxa
    have h2 := getBit_lt_nbits hb.2.2 hxb
    show x < min a.bit_vec.nbits b.bit_vec.nbits
    omega
  exact sorted_length_le hsorted hub

theorem BitSet.union_with_Inv {W : Nat} {a b : BitSet W} (ha : a.Inv) (hb : b.Inv)
    (hW : 0 < W) : (a.union_with b).Inv :=
  other_op_Inv _ (fun p q => p || q) ha hb hW (testBit_or_spec (W := W)) rfl
    (bound_or_spec (W := W))

theorem BitSet.intersect_with_Inv {W : Nat} {a b : BitSet W} (ha : a.Inv) (hb : b.Inv)
    (hW : 0 < W) : (a.intersect_with b).Inv :=
  other_op_Inv _ (fun p q => p && q) ha hb hW (testBit_and_spec (W := W)) rfl
    (bound_and_spec (W := W))

theorem BitSet.difference_with_Inv {W : Nat} {a b : BitSet W} (ha : a.Inv) (hb : b.Inv)
    (hW : 0 < W) : (a.difference_with b).Inv :=
  other_op_Inv _ (fun p q => p && !q) ha hb hW (testBit_diff_spec (W := W)) rfl
    (bound_diff_spec (W := W))

theorem BitSet.symmetric_difference_with_Inv {W : Nat} {a b : BitSet W} (ha : a.Inv)
    (hb : b.Inv) (hW : 0 < W) : (a.symmetric_difference_with b).Inv :=
  other_op_Inv _ (fun p q => p ^^ q) ha hb hW (testBit_xor_spec (W := W)) rfl
    (bound_xor_spec (W := W))

theorem BitSet.insert_Inv {W : Nat} {s : BitSet W} (hs : s.Inv) (hW : 0 < W)
    (v : Nat) : (s.insert v).2.Inv := by
  rw [BitSet.insert]
  by_cases hc : s.contains v
  · rw [if_pos hc]
    exact hs
  · rw [if_neg hc]
    by_cases hg : v ≥ s.bit_vec.len
    · simp only [hg, if_pos]
      show (((s.bit_vec.grow (v - s.bit_vec.len + 1)).set v true) : BVec W).Inv
      have hgrow := BVec.grow_Inv hs (v - s.bit_vec.len + 1)
      have hv : v < (s.bit_vec.grow (v - s.bit_vec.len + 1)).nbits := by
        show v < s.bit_vec.nbits + (v - s.bit_vec.len + 1)
        have hlen : s.bit_vec.len = s.bit_vec.nbits := rfl
        omega
      exact BVec.set_Inv hgrow hW hv true
    · simp only [hg, if_neg, if_false]
      show ((s.bit_vec.set v true) : BVec W).Inv
      have hv : v < s.bit_vec.nbits := by
        have hlen : s.bit_vec.len = s.bit_vec.nbits := rfl
        omega
      exact BVec.set_Inv hs hW hv true

theorem BitSet.remove_Inv {W : Nat} {s : BitSet W} (hs : s.Inv) (hW : 0 < W)
    (v : Nat) : (s.remove v).2.Inv := by
  rw [BitSet.remove]
  by_cases hc : s.contains v
  · simp only [hc, Bool.not_true, if_neg, if_false]
    show ((s.bit_vec.set v false) : BVec W).Inv
    have hv : v < s.bit_vec.nbits := by
      have : decide (v < s.bit_vec.len) = true ∧ s.bit_vec.getBit v = true :=
        Bool.and_eq_true_iff.mp hc
      exact of_decide_eq_true this.1
    exact BVec.set_Inv hs hW hv false
  · simp only [hc, Bool.not_false, if_pos]
    exact hs

theorem BitSet.clear_preserves_Inv {W : Nat} {s : BitSet W} (hs : s.Inv) : s.clear.Inv :=
  BVec.clear_Inv hs

/-- Any block lying in the trailing all-zero run counted by
`shrink_to_fit` is zero. -/
theorem getD_zero_of_trailing {l : List Nat} {i : Nat}
    (h : l.length - (l.reverse.takeWhile (· == 0)).length ≤ i) (hi : i < l.length) :
    l.getD i 0 = 0 := by
  have hj : l.length - 1 - i < (l.reverse.takeWhile (· == 0)).length := by
    have hle : (l.reverse.takeWhile (· == 0)).length ≤ l.length := by
      have h1 := ( List.takeWhile_prefix (l := l.reverse) (· == 0)).length_le
      rw [List.length_reverse] at h1
      exact h1
    omega
  have e2 : (l.reverse.takeWhile (· == 0))[l.length - 1 - i]? =
      l.reverse[l.length - 1 - i]? := by
    conv_lhs => rw [ List.prefix_iff_eq_take.mp ( List.takeWhile_prefix _)]
    exact List.getElem?_take_of_lt hj
  have e3 : l.reverse[l.length - 1 - i]? = l[i]? := by
    rw [List.getElem?_reverse (by omega)]
    have : l.length - 1 - (l.length - 1 - i) = i := by omega
    rw [this]
  have hx : l[i]? = some (l.getD i 0) := by
    rw [List.getD_eq_getElem?_getD, List.getElem?_eq_getElem hi]
    rfl
  have hmem : l.getD i 0 ∈ l.reverse.takeWhile (· == 0) :=
    List.getElem?_mem (by rw [e2, e3, hx])
  have hp := List.mem_takeWhile_imp hmem
  exact beq_iff_eq.mp hp

theorem BitSet.shrink_storage {W : Nat} (s : BitSet W) :
    s.shrink_to_fit.bit_vec.storage =
      s.bit_vec.storage.take
        (max (s.bit_vec.storage.length -
          (s.bit_vec.storage.reverse.takeWhile (· == 0)).length) 1) := rfl

theorem BitSet.shrink_nbits {W : Nat} (s : BitSet W) :
    s.shrink_to_fit.bit_vec.nbits =
      (max (s.bit_vec.storage.length -
        (s.bit_vec.storage.reverse.takeWhile (· == 0)).length) 1) * W := rfl

/-- The `shrink_to_fit` preserves every raw physical bit. -/
theorem BitSet.shrink_getBit {W : Nat} (s : BitSet W) (v : Nat) :
    s.shrink_to_fit.bit_vec.getBit v = s.bit_vec.getBit v := by
  rw [BVec.getBit_eq_testBit, BVec.getBit_eq_testBit, BitSet.shrink_storage]
  set n := (s.bit_vec.storage.reverse.takeWhile (· == 0)).length with hn
  set trunc := max (s.bit_vec.storage.length - n) 1 with htr
  rcases Nat.lt_or_ge (v / W) trunc with hj | hj
  · rw [getD_take hj]
  · rcases Nat.lt_or_ge (v / W) s.bit_vec.storage.length with hlt | hge
    · have hz : s.bit_vec.storage.getD (v / W) 0 = 0 :=
        getD_zero_of_trailing (by omega) hlt
      have hz2 : (s.bit_vec.storage.take trunc).getD (v / W) 0 = 0 := by
        rw [List.getD_eq_getElem?_getD, List.getElem?_eq_none ?_]
        · rfl
        · rw [List.length_take]
          omega
      rw [hz, hz2]
    · have hz : s.bit_vec.storage.getD (v / W) 0 = 0 := by
        rw [List.getD_eq_getElem?_getD, List.getElem?_eq_none (by omega)]
        rfl
      have hz2 : (s.bit_vec.storage.take trunc).getD (v / W) 0 = 0 := by
        rw [List.getD_eq_getElem?_getD, List.getElem?_eq_none ?_]
        · rfl
        · rw [List.length_take]
          omega
      rw [hz, hz2]

/-- The `shrink_to_fit` preserves membership. -/
theorem BitSet.shrink_contains {W : Nat} {s : BitSet W} (hs : s.Inv) (hW : 0 < W)
    (v : Nat) : s.shrink_to_fit.contains v = s.contains v := by
  show (decide (v < s.shrink_to_fit.bit_vec.nbits) && s.shrink_to_fit.bit_vec.getBit v) =
    (decide (v < s.bit_vec.nbits) && s.bit_vec.getBit v)
  rw [BitSet.shrink_getBit]
  cases hraw : s.bit_vec.getBit v with
  | false => simp
  | true =>
    have h1 : v < s.bit_vec.nbits := getBit_lt_nbits hs.2.2 hraw
    have h2 : v < s.shrink_to_fit.bit_vec.nbits := by
      rw [BitSet.shrink_nbits]
      set n := (s.bit_vec.storage.reverse.takeWhile (· == 0)).length with hn
      set trunc := max (s.bit_vec.storage.length - n) 1 with htr
      by_contra hc
      have hdiv : trunc ≤ v / W := by
        rw [Nat.le_div_iff_mul_le hW]
        omega
      have hz : s.bit_vec.storage.getD (v / W) 0 = 0 := by
        rcases Nat.lt_or_ge (v / W) s.bit_vec.storage.length with hlt | hge
        · exact getD_zero_of_trailing (by omega) hlt
        · rw [List.getD_eq_getElem?_getD, List.getElem?_eq_none (by omega)]
          rfl
      rw [BVec.getBit_eq_testBit, hz, Nat.zero_testBit] at hraw
      cases hraw
    rw [decide_eq_true h1, decide_eq_true h2]

/-- The `shrink_to_fit` re-establishes I1 for the recomputed logical length. -/
theorem BitSet.shrink_I1 {W : Nat} (s : BitSet W) (hW : 0 < W) :
    s.shrink_to_fit.I1 := by
  intro v hv
  rw [BitSet.shrink_nbits] at hv
  rw [BVec.getBit_eq_testBit, BitSet.shrink_storage]
  set n := (s.bit_vec.storage.reverse.takeWhile (· == 0)).length with hn
  set trunc := max (s.bit_vec.storage.length - n) 1 with htr
  have hdiv : trunc ≤ v / W := by
    rw [Nat.le_div_iff_mul_le hW]
    omega
  rw [List.getD_eq_getElem?_getD, List.getElem?_eq_none ?_]
  · exact Nat.zero_testBit _
  · rw [List.length_take]
    omega

/-- The truncated storage, re-padded with zeros, is the original storage. -/
theorem shrink_padded_eq {W : Nat} (s : BitSet W) :
    s.shrink_to_fit.bit_vec.storage ++
      List.replicate (s.bit_vec.storage.length -
        s.shrink_to_fit.bit_vec.storage.length) 0 = s.bit_vec.storage := by
  rw [BitSet.shrink_storage]
  set n := (s.bit_vec.storage.reverse.takeWhile (· == 0)).length with hn
  set trunc := max (s.bit_vec.storage.length - n) 1 with htr
  set l := s.bit_vec.storage with hl
  have hlen : (l.take trunc).length = min trunc l.length := List.length_take _ _
  apply List.ext_getElem?
  intro i
  rcases Nat.lt_or_ge i (l.take trunc).length with h1 | h1
  · rw [List.getElem?_append_left h1, List.getElem?_take_of_lt (by omega)]
  · rw [List.getElem?_append_right h1]
    rcases Nat.lt_or_ge i l.length with h2 | h2
    · have h3 : i - (l.take trunc).length < l.length - (l.take trunc).length := by omega
      rw [List.getElem?_replicate, if_pos h3, List.getElem?_eq_getElem h2]
      have htrunc_lt : trunc < l.length := by omega
      have hz : l.getD i 0 = 0 := getD_zero_of_trailing (by omega) h2
      rw [List.getD_eq_getElem?_getD, List.getElem?_eq_getElem h2, Option.getD_some] at hz
      rw [hz]
    · rw [List.getElem?_replicate, if_neg (by omega), List.getElem?_eq_none (by omega)]

/-- After `shrink_to_fit` the set compares equal (via the derived
`PartialEq`) to its pre-shrink value. -/
theorem BitSet.shrink_beq {W : Nat} (s : BitSet W) :
    s.shrink_to_fit.beq s = true := by
  rw [BitSet.beq]
  apply beq_iff_eq.mpr
  rw [match_words_eq]
  have hle : s.shrink_to_fit.bit_vec.storage.length ≤ s.bit_vec.storage.length := by
    rw [BitSet.shrink_storage, List.length_take]
    omega
  have hmax : max s.shrink_to_fit.bit_vec.storage.length s.bit_vec.storage.length =
      s.bit_vec.storage.length := by omega
  rw [hmax]
  have h2 : s.bit_vec.storage.length - s.bit_vec.storage.length = 0 := by omega
  rw [h2, List.replicate_zero, List.append_nil]
  show enumerate 0 _ = enumerate 0 _
  rw [shrink_padded_eq]

/-- Lexicographic comparison of two position (or block) sequences, an
exhausted sequence comparing less than a continuing one. -/
def natListCmp : List Nat → List Nat → Ordering
  | [], [] => Ordering.eq
  | [], _ :: _ => Ordering.lt
  | _ :: _, [] => Ordering.gt
  | x :: xs, y :: ys => (compare x y).then (natListCmp xs ys)

theorem listCmp_enumerate :
    ∀ (l1 l2 : List Nat) (k : Nat),
      listCmp (enumerate k l1) (enumerate k l2) = natListCmp l1 l2 := by
  intro l1
  induction l1 with
  | nil =>
    intro l2 k
    cases l2 <;> rfl
  | cons x xs ih =>
    intro l2 k
    cases l2 with
    | nil => rfl
    | cons y ys =>
      show (pairCmp (k, x) (k, y)).then (listCmp (enumerate (k + 1) xs) (enumerate (k + 1) ys)) = _
      rw [ih ys (k + 1), pairCmp]
      show ((compare k k).then (compare x y)).then (natListCmp xs ys) = _
      rw [Nat.compare_eq_eq.mpr rfl]
      rfl

theorem foldl_count_eq_sum :
    ∀ (l : List Nat) (acc : Nat),
      l.foldl (fun acc n => acc + count_ones n) acc = acc + (l.map count_ones).sum := by
  intro l
  induction l with
  | nil => intro acc; simp
  | cons b t ih =>
    intro acc
    rw [List.foldl_cons, ih, List.map_cons, List.sum_cons]
    omega

theorem nat_sum_eq_zero_iff :
    ∀ (l : List Nat), l.sum = 0 ↔ ∀ x ∈ l, x = 0 := by
  intro l
  induction l with
  | nil => simp
  | cons x xs ih => simp [ih]

theorem div_mul_add_lt {W i t : Nat} (hW : 0 < W) (ht : t < W) : (i * W + t) / W = i := by
  have h1 : i * W + t = W * i + t := by ring
  rw [h1, Nat.mul_add_div hW, Nat.div_eq_of_lt ht]
  omega

theorem mod_mul_add_lt {W i t : Nat} (ht : t < W) : (i * W + t) % W = t := by
  rw [Nat.add_comm, Nat.add_mul_mod_self_right, Nat.mod_eq_of_lt ht]

theorem getD_eq_getElem_of_lt {l : List Nat} {j : Nat} (h : j < l.length) :
    l.getD j 0 = l[j] := by
  rw [List.getD_eq_getElem?_getD, List.getElem?_eq_getElem h, Option.getD_some]

/-- Decidable sufficient conditions for the representation invariant, for
use at concrete instances: beyond `storage.length * W` every physical bit
is automatically 0, so checking I1 below that bound suffices. -/
theorem Inv_of_checks {W : Nat} (bv : BVec W) (hW : 0 < W)
    (h1 : bv.storage.length = blocks_for_bits W bv.nbits)
    (h2 : ∀ b ∈ bv.storage, b < 2 ^ W)
    (h3 : ∀ i < bv.storage.length * W, bv.nbits ≤ i → bv.getBit i = false) :
    bv.Inv := by
  refine ⟨h1, h2, ?_⟩
  intro i hi
  rcases Nat.lt_or_ge i (bv.storage.length * W) with h | h
  · exact h3 i h hi
  · rw [BVec.getBit_eq_testBit]
    have hdiv : bv.storage.length ≤ i / W := by
      rw [Nat.le_div_iff_mul_le hW]
      omega
    rw [List.getD_eq_getElem?_getD, List.getElem?_eq_none (by omega)]
    exact Nat.zero_testBit _

/-- C1: the claimed ordering is refuted on the sets {1} and {0,1} (width 8):
`cmp` says {1} < {0,1} because the block 2 is numerically below the block 3,
but lexicographic comparison of the ascending member sequences [1] and
[0, 1] puts {0,1} first (0 < 1 at the first position). -/
theorem C1_counterexample :
    BitSet.cmp (⟨⟨[2], 8⟩⟩ : BitSet 8) ⟨⟨[3], 8⟩⟩ = Ordering.lt ∧
    natListCmp (BitSet.iterList (⟨⟨[2], 8⟩⟩ : BitSet 8))
      (BitSet.iterList (⟨⟨[3], 8⟩⟩ : BitSet 8)) = Ordering.gt :=
  ⟨by decide, by decide⟩

/-- C1 (amended): for every two sets `a` and `b`, the derived `Ord::cmp` is
the lexicographic comparison of the two zero-padded block sequences in
ascending block-index order, each block compared as an unsigned integer —
not lexicographic in the ascending member positions. -/
theorem C1_cmp_blockwise {W : Nat} (a b : BitSet W) :
    a.cmp b =
      natListCmp
        (a.bit_vec.storage ++ List.replicate
          (max a.bit_vec.storage.length b.bit_vec.storage.length -
            a.bit_vec.storage.length) 0)
        (b.bit_vec.storage ++ List.replicate
          (max a.bit_vec.storage.length b.bit_vec.storage.length -
            b.bit_vec.storage.length) 0) := by
  show listCmp (match_words a.bit_vec b.bit_vec).1 (match_words a.bit_vec b.bit_vec).2 = _
  rw [match_words_eq]
  exact listCmp_enumerate _ _ 0

/-- C10: `is_empty` (the block-wise "no bit set anywhere" query) is true
exactly when `len` (the popcount sum) is zero. -/
theorem C10_is_empty_iff_len_zero {W : Nat} (s : BitSet W) :
    s.is_empty = true ↔ s.len = 0 := by
  show (s.bit_vec.storage.all (· == 0) = true) ↔ _
  rw [List.all_eq_true]
  have h1 : s.len = (s.bit_vec.storage.map count_ones).sum := by
    rw [BitSet.len]
    have := foldl_count_eq_sum s.bit_vec.storage 0
    omega
  rw [h1, nat_sum_eq_zero_iff]
  constructor
  · intro h x hx
    rcases List.mem_map.mp hx with ⟨b, hb, rfl⟩
    exact count_ones_eq_zero.mpr (beq_iff_eq.mp (h b hb))
  · intro h b hb
    exact beq_iff_eq.mpr (count_ones_eq_zero.mp (h (count_ones b) (List.mem_map_of_mem _ hb)))

/-- C6: `len()` equals the number of elements yielded by `iter()`, and both
equal the sum of popcounts over all storage blocks. -/
theorem C6_len_iter_popcount {W : Nat} (s : BitSet W) (hW : 0 < W) (hs : s.Inv) :
    s.len = s.iterList.length ∧
    s.len = (s.bit_vec.storage.map count_ones).sum := by
  have h1 : s.len = (s.bit_vec.storage.map count_ones).sum := by
    rw [BitSet.len]
    have := foldl_count_eq_sum s.bit_vec.storage 0
    omega
  constructor
  · rw [BitSet.iterList, from_blocks_run_eq hs.2.1, length_specList]
    exact h1
  · exact h1

/-- Witness for C6 at the concrete set {1,2,4} with 8-bit blocks. -/
theorem C6_witness :
    (0 < 8 ∧ (⟨⟨[22], 8⟩⟩ : BitSet 8).Inv) ∧
    ((⟨⟨[22], 8⟩⟩ : BitSet 8).len = (⟨⟨[22], 8⟩⟩ : BitSet 8).iterList.length ∧
     (⟨⟨[22], 8⟩⟩ : BitSet 8).len =
       ((⟨⟨[22], 8⟩⟩ : BitSet 8).bit_vec.storage.map count_ones).sum) := by
  have hInv : (⟨⟨[22], 8⟩⟩ : BitSet 8).Inv :=
    Inv_of_checks ⟨[22], 8⟩ (by decide) (by decide) (by decide) (by decide)
  exact ⟨⟨by decide, hInv⟩, C6_len_iter_popcount _ (by decide) hInv⟩

/-- C9: `iter()` yields exactly the indices of the set bits, in strictly
ascending order (the step mechanism — lowest-set-bit isolation via
`(head & -head) - 1`, popcount for the index, clearing with
`head & (head - 1)`, and termination when head is 0 and the tail stream is
exhausted — is embedded in `drainGo`/`blockIterRun`). -/
theorem C9_iter_ascending_setbits {W : Nat} (s : BitSet W) (hW : 0 < W)
    (hs : s.Inv) :
    List.Sorted (· < ·) s.iterList ∧ ∀ v, v ∈ s.iterList ↔ s.contains v = true := by
  refine ⟨sorted_iterList hs, ?_⟩
  intro v
  rw [mem_iterList hs hW, BitSet.contains_eq_getBit hs.2.2]

/-- Witness for C9 at the concrete set {1,2,4} with 8-bit blocks. -/
theorem C9_witness :
    (0 < 8 ∧ (⟨⟨[22], 8⟩⟩ : BitSet 8).Inv) ∧
    (List.Sorted (· < ·) (⟨⟨[22], 8⟩⟩ : BitSet 8).iterList ∧
     ∀ v, v ∈ (⟨⟨[22], 8⟩⟩ : BitSet 8).iterList ↔
       (⟨⟨[22], 8⟩⟩ : BitSet 8).contains v = true) := by
  have hInv : (⟨⟨[22], 8⟩⟩ : BitSet 8).Inv :=
    Inv_of_checks ⟨[22], 8⟩ (by decide) (by decide) (by decide) (by decide)
  exact ⟨⟨by decide, hInv⟩, C9_iter_ascending_setbits _ (by decide) hInv⟩

/-- C4: `insert(v)` returns false and is a no-op when `v` is present;
otherwise it grows the storage to at least `v+1` bits when needed, sets
bit `v` (changing no other membership), and returns true; afterwards
`contains(v)` holds and a second `insert(v)` returns false with no state
change. -/
theorem C4_insert_spec {W : Nat} (s : BitSet W) (v : Nat) (hW : 0 < W)
    (hs : s.Inv) :
    (s.contains v = true → s.insert v = (false, s)) ∧
    (s.contains v = false →
      (s.insert v).1 = true ∧
      v + 1 ≤ (s.insert v).2.bit_vec.nbits ∧
      ∀ u, (s.insert v).2.contains u = (s.contains u || u == v)) ∧
    (s.insert v).2.contains v = true ∧
    (s.insert v).2.insert v = (false, (s.insert v).2) := by
  by_cases hc : s.contains v = true
  · have he : s.insert v = (false, s) := by rw [BitSet.insert, if_pos hc]
    refine ⟨fun _ => he, fun hcf => absurd hc (by simp [hcf]), ?_, ?_⟩
    · rw [he]
      exact hc
    · rw [he]
      show s.insert v = (false, s)
      exact he
  · have hcf : s.contains v = false := by
      revert hc
      cases s.contains v <;> simp
    have hinsert : s.insert v =
        (true, ⟨(if v ≥ s.bit_vec.len then s.bit_vec.grow (v - s.bit_vec.len + 1)
          else s.bit_vec).set v true⟩) := by
      rw [BitSet.insert, if_neg hc]
    set bv := (if v ≥ s.bit_vec.len then s.bit_vec.grow (v - s.bit_vec.len + 1)
      else s.bit_vec) with hbv
    have hbvInv : bv.Inv := by
      rw [hbv]
      by_cases hge : v ≥ s.bit_vec.len
      · rw [if_pos hge]
        exact BVec.grow_Inv hs _
      · rw [if_neg hge]
        exact hs
    have hvlt : v < bv.nbits := by
      rw [hbv]
      have hlen : s.bit_vec.len = s.bit_vec.nbits := rfl
      by_cases hge : v ≥ s.bit_vec.len
      · rw [if_pos hge]
        show v < s.bit_vec.nbits + (v - s.bit_vec.len + 1)
        omega
      · rw [if_neg hge]
        show v < s.bit_vec.nbits
        omega
    have hgb : ∀ u, bv.getBit u = s.bit_vec.getBit u := by
      intro u
      rw [hbv]
      by_cases hge : v ≥ s.bit_vec.len
      · rw [if_pos hge]
        exact BVec.getBit_grow _ _ _
      · rw [if_neg hge]
    have hblk : v / W < bv.storage.length := by
      rw [hbvInv.1]
      exact div_lt_blocks_for_bits hW hvlt
    have hrInv : (s.insert v).2.Inv := BitSet.insert_Inv hs hW v
    have hcont : ∀ u, (s.insert v).2.contains u = (s.contains u || u == v) := by
      intro u
      rw [BitSet.contains_eq_getBit hrInv.2.2, hinsert]
      show ((bv.set v true) : BVec W).getBit u = _
      rw [BVec.getBit_set_true bv v u hW hblk, hgb u,
        ← BitSet.contains_eq_getBit hs.2.2]
    have hcv : (s.insert v).2.contains v = true := by
      rw [hcont v, hcf]
      simp
    refine ⟨fun hct => absurd hct hc, fun _ => ⟨?_, ?_, hcont⟩, hcv, ?_⟩
    · rw [hinsert]
    · rw [hinsert]
      show v + 1 ≤ ((bv.set v true) : BVec W).nbits
      rw [BVec.set_nbits]
      omega
    · rw [BitSet.insert, if_pos hcv]

/-- C5: every mutating operation — insert, remove, clear, the four in-place
set-algebra operations, and shrink_to_fit — leaves no 1-bit at or beyond
the logical length (invariant I1). -/
theorem C5_ops_preserve_I1 {W : Nat} (a b : BitSet W) (v : Nat) (hW : 0 < W)
    (ha : a.Inv) (hb : b.Inv) :
    (a.insert v).2.I1 ∧ (a.remove v).2.I1 ∧ a.clear.I1 ∧
    (a.union_with b).I1 ∧ (a.intersect_with b).I1 ∧
    (a.difference_with b).I1 ∧ (a.symmetric_difference_with b).I1 ∧
    a.shrink_to_fit.I1 :=
  ⟨(BitSet.insert_Inv ha hW v).2.2, (BitSet.remove_Inv ha hW v).2.2,
   (BitSet.clear_preserves_Inv ha).2.2,
   (BitSet.union_with_Inv ha hb hW).2.2, (BitSet.intersect_with_Inv ha hb hW).2.2,
   (BitSet.difference_with_Inv ha hb hW).2.2,
   (BitSet.symmetric_difference_with_Inv ha hb hW).2.2,
   BitSet.shrink_I1 a hW⟩

/-- Witness for C5 at the concrete sets {1,2,4} and {0,2} with 8-bit
blocks. -/
theorem C5_witness :
    (0 < 8 ∧ (⟨⟨[22], 8⟩⟩ : BitSet 8).Inv ∧ (⟨⟨[5], 8⟩⟩ : BitSet 8).Inv) ∧
    ((((⟨⟨[22], 8⟩⟩ : BitSet 8)).insert 3).2.I1 ∧
     (((⟨⟨[22], 8⟩⟩ : BitSet 8)).remove 3).2.I1 ∧
     ((⟨⟨[22], 8⟩⟩ : BitSet 8)).clear.I1 ∧
     (((⟨⟨[22], 8⟩⟩ : BitSet 8)).union_with ⟨⟨[5], 8⟩⟩).I1 ∧
     (((⟨⟨[22], 8⟩⟩ : BitSet 8)).intersect_with ⟨⟨[5], 8⟩⟩).I1 ∧
     (((⟨⟨[22], 8⟩⟩ : BitSet 8)).difference_with ⟨⟨[5], 8⟩⟩).I1 ∧
     (((⟨⟨[22], 8⟩⟩ : BitSet 8)).symmetric_difference_with ⟨⟨[5], 8⟩⟩).I1 ∧
     ((⟨⟨[22], 8⟩⟩ : BitSet 8)).shrink_to_fit.I1) := by
  have hA : (⟨⟨[22], 8⟩⟩ : BitSet 8).Inv :=
    Inv_of_checks ⟨[22], 8⟩ (by decide) (by decide) (by decide) (by decide)
  have hB : (⟨⟨[5], 8⟩⟩ : BitSet 8).Inv :=
    Inv_of_checks ⟨[5], 8⟩ (by decide) (by decide) (by decide) (by decide)
  exact ⟨⟨by decide, hA, hB⟩, C5_ops_preserve_I1 _ _ 3 (by decide) hA hB⟩

/-- C2: each in-place set-algebra operation produces exactly the members
that the corresponding non-mutating iterator yields for the original
operands. -/
theorem C2_inplace_matches_iterators {W : Nat} (a b : BitSet W) (v : Nat)
    (hW : 0 < W) (ha : a.Inv) (hb : b.Inv) :
    ((a.union_with b).contains v = true ↔ v ∈ a.unionList b) ∧
    ((a.intersect_with b).contains v = true ↔ v ∈ a.intersectionList b) ∧
    ((a.difference_with b).contains v = true ↔ v ∈ a.differenceList b) ∧
    ((a.symmetric_difference_with b).contains v = true ↔
      v ∈ a.symmetricDifferenceList b) := by
  refine ⟨?_, ?_, ?_, ?_⟩
  · rw [BitSet.contains_eq_getBit (BitSet.union_with_Inv ha hb hW).2.2,
      BitSet.union_with,
      other_op_getBit _ (fun p q => p || q) ha hb hW (testBit_or_spec (W := W)) rfl v,
      BitSet.unionList,
      mem_opList _ (fun p q => p || q) ha hb hW (by simp) (testBit_or_spec (W := W))
        (bound_or_spec (W := W)) v]
  · rw [BitSet.contains_eq_getBit (BitSet.intersect_with_Inv ha hb hW).2.2,
      BitSet.intersect_with,
      other_op_getBit _ (fun p q => p && q) ha hb hW (testBit_and_spec (W := W)) rfl v,
      intersectionList_eq_untruncated ha hb hW,
      mem_opList _ (fun p q => p && q) ha hb hW (by simp) (testBit_and_spec (W := W))
        (bound_and_spec (W := W)) v]
  · rw [BitSet.contains_eq_getBit (BitSet.difference_with_Inv ha hb hW).2.2,
      BitSet.difference_with,
      other_op_getBit _ (fun p q => p && !q) ha hb hW (testBit_diff_spec (W := W)) rfl v,
      BitSet.differenceList,
      mem_opList _ (fun p q => p && !q) ha hb hW (by simp) (testBit_diff_spec (W := W))
        (bound_diff_spec (W := W)) v]
  · rw [BitSet.contains_eq_getBit
      (BitSet.symmetric_difference_with_Inv ha hb hW).2.2,
      BitSet.symmetric_difference_with,
      other_op_getBit _ (fun p q => p ^^ q) ha hb hW (testBit_xor_spec (W := W)) rfl v,
      BitSet.symmetricDifferenceList,
      mem_opList _ (fun p q => p ^^ q) ha hb hW (by simp) (testBit_xor_spec (W := W))
        (bound_xor_spec (W := W)) v]

/-- Witness for C2 at the concrete sets {1,2,4} and {0,2} with 8-bit
blocks. -/
theorem C2_witness :
    (0 < 8 ∧ (⟨⟨[22], 8⟩⟩ : BitSet 8).Inv ∧ (⟨⟨[5], 8⟩⟩ : BitSet 8).Inv) ∧
    ((((⟨⟨[22], 8⟩⟩ : BitSet 8)).union_with ⟨⟨[5], 8⟩⟩).contains 2 = true ↔
      2 ∈ ((⟨⟨[22], 8⟩⟩ : BitSet 8)).unionList ⟨⟨[5], 8⟩⟩) ∧
    ((((⟨⟨[22], 8⟩⟩ : BitSet 8)).intersect_with ⟨⟨[5], 8⟩⟩).contains 2 = true ↔
      2 ∈ ((⟨⟨[22], 8⟩⟩ : BitSet 8)).intersectionList ⟨⟨[5], 8⟩⟩) ∧
    ((((⟨⟨[22], 8⟩⟩ : BitSet 8)).difference_with ⟨⟨[5], 8⟩⟩).contains 2 = true ↔
      2 ∈ ((⟨⟨[22], 8⟩⟩ : BitSet 8)).differenceList ⟨⟨[5], 8⟩⟩) ∧
    ((((⟨⟨[22], 8⟩⟩ : BitSet 8)).symmetric_difference_with ⟨⟨[5], 8⟩⟩).contains 2 = true ↔
      2 ∈ ((⟨⟨[22], 8⟩⟩ : BitSet 8)).symmetricDifferenceList ⟨⟨[5], 8⟩⟩) := by
  have hA : (⟨⟨[22], 8⟩⟩ : BitSet 8).Inv :=
    Inv_of_checks ⟨[22], 8⟩ (by decide) (by decide) (by decide) (by decide)
  have hB : (⟨⟨[5], 8⟩⟩ : BitSet 8).Inv :=
    Inv_of_checks ⟨[5], 8⟩ (by decide) (by decide) (by decide) (by decide)
  exact ⟨⟨by decide, hA, hB⟩, C2_inplace_matches_iterators _ _ 2 (by decide) hA hB⟩

/-- Witness for C4: inserting the absent value 3 into {1,2,4} with 8-bit
blocks. -/
theorem C4_witness :
    (0 < 8 ∧ (⟨⟨[22], 8⟩⟩ : BitSet 8).Inv) ∧
    (((⟨⟨[22], 8⟩⟩ : BitSet 8).contains 3 = true →
        (⟨⟨[22], 8⟩⟩ : BitSet 8).insert 3 = (false, ⟨⟨[22], 8⟩⟩)) ∧
     ((⟨⟨[22], 8⟩⟩ : BitSet 8).contains 3 = false →
        ((⟨⟨[22], 8⟩⟩ : BitSet 8).insert 3).1 = true ∧
        3 + 1 ≤ ((⟨⟨[22], 8⟩⟩ : BitSet 8).insert 3).2.bit_vec.nbits ∧
        ∀ u, ((⟨⟨[22], 8⟩⟩ : BitSet 8).insert 3).2.contains u =
          ((⟨⟨[22], 8⟩⟩ : BitSet 8).contains u || u == 3)) ∧
     ((⟨⟨[22], 8⟩⟩ : BitSet 8).insert 3).2.contains 3 = true ∧
     ((⟨⟨[22], 8⟩⟩ : BitSet 8).insert 3).2.insert 3 =
       (false, ((⟨⟨[22], 8⟩⟩ : BitSet 8).insert 3).2)) := by
  have hA : (⟨⟨[22], 8⟩⟩ : BitSet 8).Inv :=
    Inv_of_checks ⟨[22], 8⟩ (by decide) (by decide) (by decide) (by decide)
  exact ⟨⟨by decide, hA⟩, C4_insert_spec _ 3 (by decide) hA⟩

/-- C7: `intersection` yields exactly the ascending common members, and its
`take min(len_bits)` truncation drops nothing relative to the untruncated
AND merge. -/
theorem C7_intersection_spec {W : Nat} (a b : BitSet W) (hW : 0 < W)
    (ha : a.Inv) (hb : b.Inv) :
    (∀ v, v ∈ a.intersectionList b ↔
      (a.contains v = true ∧ b.contains v = true)) ∧
    List.Sorted (· < ·) (a.intersectionList b) ∧
    a.intersectionList b =
      from_blocks_run W (twoBitPositions (fun w1 w2 => w1 &&& w2)
        a.bit_vec.storage b.bit_vec.storage) := by
  have heq := intersectionList_eq_untruncated ha hb hW
  refine ⟨?_, ?_, heq⟩
  · intro v
    rw [heq, mem_opList _ (fun p q => p && q) ha hb hW (by simp)
        (testBit_and_spec (W := W)) (bound_and_spec (W := W)) v,
      BitSet.contains_eq_getBit ha.2.2, BitSet.contains_eq_getBit hb.2.2]
    exact Bool.and_eq_true_iff
  · rw [heq]
    exact sorted_opList _ ha hb (bound_and_spec (W := W))

/-- Witness for C7 at the concrete sets {1,2,4} and {0,2} with 8-bit
blocks. -/
theorem C7_witness :
    (0 < 8 ∧ (⟨⟨[22], 8⟩⟩ : BitSet 8).Inv ∧ (⟨⟨[5], 8⟩⟩ : BitSet 8).Inv) ∧
    ((∀ v, v ∈ ((⟨⟨[22], 8⟩⟩ : BitSet 8)).intersectionList ⟨⟨[5], 8⟩⟩ ↔
       ((⟨⟨[22], 8⟩⟩ : BitSet 8).contains v = true ∧
        (⟨⟨[5], 8⟩⟩ : BitSet 8).contains v = true)) ∧
     List.Sorted (· < ·) (((⟨⟨[22], 8⟩⟩ : BitSet 8)).intersectionList ⟨⟨[5], 8⟩⟩) ∧
     ((⟨⟨[22], 8⟩⟩ : BitSet 8)).intersectionList ⟨⟨[5], 8⟩⟩ =
       from_blocks_run 8 (twoBitPositions (fun w1 w2 => w1 &&& w2) [22] [5])) := by
  have hA : (⟨⟨[22], 8⟩⟩ : BitSet 8).Inv :=
    Inv_of_checks ⟨[22], 8⟩ (by decide) (by decide) (by decide) (by decide)
  have hB : (⟨⟨[5], 8⟩⟩ : BitSet 8).Inv :=
    Inv_of_checks ⟨[5], 8⟩ (by decide) (by decide) (by decide) (by decide)
  exact ⟨⟨by decide, hA, hB⟩, C7_intersection_spec _ _ (by decide) hA hB⟩

theorem drop_getD :
    ∀ (l : List Nat) (k i : Nat), (l.drop k).getD i 0 = l.getD (k + i) 0 := by
  intro l
  induction l with
  | nil => intro k i; simp
  | cons x xs ih =>
    intro k i
    cases k with
    | zero => simp
    | succ k =>
      rw [List.drop_succ_cons, ih k i]
      have h1 : k + 1 + i = (k + i) + 1 := by omega
      rw [h1, List.getD_cons_succ]

/-- On a set with at least one storage block, `shrink_to_fit` removes only
trailing all-zero blocks, keeps at least one block, recomputes the logical
length to the new block count times the block width, preserves membership
(the bounds guard keeps every post-shrink storage read in range, so the
total model is faithful here), and leaves the set equal under the derived
equality to its pre-shrink value. On the zero-block state the source
instead breaks the truncate/set_len consistency contract of spec §6. -/
theorem shrink_to_fit_correct_of_nonempty {W : Nat} (s : BitSet W) (hW : 0 < W)
    (hs : s.Inv) (hne : 1 ≤ s.bit_vec.storage.length) :
    (∃ k, s.shrink_to_fit.bit_vec.storage = s.bit_vec.storage.take k ∧
      ∀ b ∈ s.bit_vec.storage.drop k, b = 0) ∧
    1 ≤ s.shrink_to_fit.bit_vec.storage.length ∧
    s.shrink_to_fit.bit_vec.nbits = s.shrink_to_fit.bit_vec.storage.length * W ∧
    (∀ v, s.shrink_to_fit.contains v = s.contains v) ∧
    s.shrink_to_fit.beq s = true := by
  have hnle : (s.bit_vec.storage.reverse.takeWhile (· == 0)).length ≤
      s.bit_vec.storage.length := by
    have h1 := ( List.takeWhile_prefix (l := s.bit_vec.storage.reverse) (· == 0)).length_le
    rw [List.length_reverse] at h1
    exact h1
  refine ⟨?_, ?_, ?_, BitSet.shrink_contains hs hW, BitSet.shrink_beq s⟩
  · refine ⟨max (s.bit_vec.storage.length -
      (s.bit_vec.storage.reverse.takeWhile (· == 0)).length) 1,
      BitSet.shrink_storage s, ?_⟩
    intro b hb
    rcases List.mem_iff_getElem.mp hb with ⟨i, hi, rfl⟩
    have hlen := hi
    rw [List.length_drop] at hlen
    rw [← getD_eq_getElem_of_lt hi, drop_getD]
    exact getD_zero_of_trailing (by omega) (by omega)
  · rw [BitSet.shrink_storage, List.length_take]
    omega
  · rw [BitSet.shrink_nbits, BitSet.shrink_storage, List.length_take]
    have h2 : min (max (s.bit_vec.storage.length -
        (s.bit_vec.storage.reverse.takeWhile (· == 0)).length) 1)
        s.bit_vec.storage.length =
        max (s.bit_vec.storage.length -
          (s.bit_vec.storage.reverse.takeWhile (· == 0)).length) 1 := by
      omega
    rw [h2]

/-- C3: evaluation of the code at the failing input, the fresh set
`BitSet::new()` with 8-bit blocks, which satisfies the representation
invariant and has no storage blocks. Before the call, `contains 0`
evaluates to some false. `shrink_to_fit` truncates the storage to
`max (0 - 0) 1 = 1` blocks — a no-op on the zero-block storage — and then
sets the logical length to `1 * 8 = 8`, so the result has logical length 8
with zero allocated blocks, violating the storage-layout invariant
(`blocks_for_bits 8 8 = 1 ≠ 0`). The claim requires membership to be
unchanged, but `contains 0` now passes its `0 < len` bounds guard and the
block read is out of range, which the storage reports as a panic
(spec §6), modelled as none. -/
theorem C3_failing_input_eval :
    (BitSet.new 8).Inv ∧
    (BitSet.new 8).contains? 0 = Option.some false ∧
    (BitSet.new 8).shrink_to_fit.bit_vec.storage = [] ∧
    (BitSet.new 8).shrink_to_fit.bit_vec.nbits = 8 ∧
    (BitSet.new 8).shrink_to_fit.bit_vec.storage.length ≠
      blocks_for_bits 8 (BitSet.new 8).shrink_to_fit.bit_vec.nbits ∧
    (BitSet.new 8).shrink_to_fit.contains? 0 = Option.none :=
  ⟨Inv_of_checks ⟨[], 0⟩ (by decide) (by decide) (by decide) (by decide),
    by decide, by decide, by decide, by decide, by decide⟩

/-- C8: the two-part check of `is_subset` — blockwise `self & other ==
self` over the overlapping range, and all of self's blocks past other's
block count zero — holds exactly when every member of `self` is a member
of `other`. -/
theorem C8_is_subset_iff {W : Nat} (a b : BitSet W) (hW : 0 < W)
    (ha : a.Inv) (hb : b.Inv) :
    a.is_subset b = true ↔
      ∀ v, a.contains v = true → b.contains v = true := by
  have hob : blocks_for_bits W b.bit_vec.len = b.bit_vec.storage.length := hb.1.symm
  show ((a.bit_vec.storage.zip b.bit_vec.storage).all (fun p => p.1 &&& p.2 == p.1) &&
    (a.bit_vec.storage.drop (blocks_for_bits W b.bit_vec.len)).all (· == 0)) = true ↔ _
  rw [Bool.and_eq_true_iff, List.all_eq_true, List.all_eq_true]
  constructor
  · rintro ⟨hZ, hD⟩ v hv
    rw [BitSet.contains_eq_getBit ha.2.2, BVec.getBit_eq_testBit] at hv
    rw [BitSet.contains_eq_getBit hb.2.2, BVec.getBit_eq_testBit]
    have hja : v / W < a.bit_vec.storage.length := by
      by_contra hge
      rw [List.getD_eq_getElem?_getD, List.getElem?_eq_none (by omega)] at hv
      simp at hv
    rcases Nat.lt_or_ge (v / W) b.bit_vec.storage.length with hjb | hjb
    · have hjm : v / W < (a.bit_vec.storage.zip b.bit_vec.storage).length := by
        rw [List.length_zip]
        omega
      have hp := hZ _ (List.getElem_mem hjm)
      rw [List.getElem_zip] at hp
      have heq : a.bit_vec.storage[v / W] &&& b.bit_vec.storage[v / W] =
          a.bit_vec.storage[v / W] := beq_iff_eq.mp hp
      rw [getD_eq_getElem_of_lt hja] at hv
      have hand := congrArg (fun x => x.testBit (v % W)) heq
      simp only [Nat.testBit_and] at hand
      rw [hv, Bool.true_and] at hand
      rw [getD_eq_getElem_of_lt hjb, hand]
    · exfalso
      have hgd : (a.bit_vec.storage.drop (blocks_for_bits W b.bit_vec.len)).getD
          (v / W - b.bit_vec.storage.length) 0 = a.bit_vec.storage.getD (v / W) 0 := by
        rw [drop_getD]
        congr 1
        omega
      have h0 : a.bit_vec.storage.getD (v / W) 0 = 0 := by
        rw [← hgd]
        rcases getD_mem_or_zero
          (l := a.bit_vec.storage.drop (blocks_for_bits W b.bit_vec.len))
          (v / W - b.bit_vec.storage.length) with hm | hz
        · exact beq_iff_eq.mp (hD _ hm)
        · exact hz
      rw [h0] at hv
      simp at hv
  · intro hsub
    constructor
    · intro x hx
      rcases List.mem_iff_getElem.mp hx with ⟨i, hi, rfl⟩
      have hia : i < a.bit_vec.storage.length := by
        rw [List.length_zip] at hi
        omega
      have hib : i < b.bit_vec.storage.length := by
        rw [List.length_zip] at hi
        omega
      rw [List.getElem_zip]
      show (a.bit_vec.storage[i] &&& b.bit_vec.storage[i] ==
        a.bit_vec.storage[i]) = true
      apply beq_iff_eq.mpr
      apply Nat.eq_of_testBit_eq
      intro t
      rw [Nat.testBit_and]
      cases hta : a.bit_vec.storage[i].testBit t with
      | false => simp
      | true =>
        rw [Bool.true_and]
        have htW : t < W := by
          by_contra hge
          have hlt : a.bit_vec.storage[i] < 2 ^ t :=
            lt_of_lt_of_le (ha.2.1 _ (List.getElem_mem hia))
              (Nat.pow_le_pow_right (by omega) (by omega))
          rw [Nat.testBit_lt_two_pow hlt] at hta
          cases hta
        have hva : a.bit_vec.getBit (i * W + t) = true := by
          rw [BVec.getBit_eq_testBit, div_mul_add_lt hW htW, mod_mul_add_lt htW,
            getD_eq_getElem_of_lt hia]
          exact hta
        have hcb := hsub (i * W + t)
          (by rw [BitSet.contains_eq_getBit ha.2.2]; exact hva)
        rw [BitSet.contains_eq_getBit hb.2.2, BVec.getBit_eq_testBit,
          div_mul_add_lt hW htW, mod_mul_add_lt htW,
          getD_eq_getElem_of_lt hib] at hcb
        exact hcb
    · intro x hx
      rcases List.mem_iff_getElem.mp hx with ⟨i, hi, rfl⟩
      apply beq_iff_eq.mpr
      have hgd : (a.bit_vec.storage.drop (blocks_for_bits W b.bit_vec.len))[i] =
          a.bit_vec.storage.getD (blocks_for_bits W b.bit_vec.len + i) 0 := by
        rw [← getD_eq_getElem_of_lt hi, drop_getD]
      rw [hgd]
      apply Nat.eq_of_testBit_eq
      intro t
      rw [Nat.zero_testBit]
      cases hta : (a.bit_vec.storage.getD
          (blocks_for_bits W b.bit_vec.len + i) 0).testBit t with
      | false => rfl
      | true =>
        exfalso
        have hblt : a.bit_vec.storage.getD
            (blocks_for_bits W b.bit_vec.len + i) 0 < 2 ^ W := by
          rcases getD_mem_or_zero (l := a.bit_vec.storage)
            (blocks_for_bits W b.bit_vec.len + i) with hm | hz
          · exact ha.2.1 _ hm
          · rw [hz]
            exact Nat.pos_pow_of_pos W (by omega)
        have htW : t < W := by
          by_contra hge
          have hlt : a.bit_vec.storage.getD
              (blocks_for_bits W b.bit_vec.len + i) 0 < 2 ^ t :=
            lt_of_lt_of_le hblt (Nat.pow_le_pow_right (by omega) (by omega))
          rw [Nat.testBit_lt_two_pow hlt] at hta
          cases hta
        have hva : a.bit_vec.getBit
            ((blocks_for_bits W b.bit_vec.len + i) * W + t) = true := by
          rw [BVec.getBit_eq_testBit, div_mul_add_lt hW htW, mod_mul_add_lt htW]
          exact hta
        have hcb := hsub ((blocks_for_bits W b.bit_vec.len + i) * W + t)
          (by rw [BitSet.contains_eq_getBit ha.2.2]; exact hva)
        rw [BitSet.contains_eq_getBit hb.2.2, BVec.getBit_eq_testBit,
          div_mul_add_lt hW htW, mod_mul_add_lt htW] at hcb
        have hzb : b.bit_vec.storage.getD
            (blocks_for_bits W b.bit_vec.len + i) 0 = 0 := by
          rw [List.getD_eq_getElem?_getD, List.getElem?_eq_none (by omega)]
          rfl
        rw [hzb] at hcb
        simp at hcb

/-- Witness for C8: {1,2,4} against their union with {0,2} (a true subset
relation) with 8-bit blocks. -/
theorem C8_witness :
    (0 < 8 ∧ (⟨⟨[22], 8⟩⟩ : BitSet 8).Inv ∧ (⟨⟨[23], 8⟩⟩ : BitSet 8).Inv) ∧
    ((⟨⟨[22], 8⟩⟩ : BitSet 8).is_subset ⟨⟨[23], 8⟩⟩ = true ↔
      ∀ v, (⟨⟨[22], 8⟩⟩ : BitSet 8).contains v = true →
        (⟨⟨[23], 8⟩⟩ : BitSet 8).contains v = true) := by
  have hA : (⟨⟨[22], 8⟩⟩ : BitSet 8).Inv :=
    Inv_of_checks ⟨[22], 8⟩ (by decide) (by decide) (by decide) (by decide)
  have hB : (⟨⟨[23], 8⟩⟩ : BitSet 8).Inv :=
    Inv_of_checks ⟨[23], 8⟩ (by decide) (by decide) (by decide) (by decide)
  exact ⟨⟨by decide, hA, hB⟩, C8_is_subset_iff _ _ (by decide) hA hB⟩
